import Mathlib

/-!
Verification of the change-application core of the jdk-upgrader repository.

The development shallowly embeds the Python modules
`src/utils/code_matcher.py`, `src/utils/code_extractor.py` and
`src/writers/change_writer.py` into Lean.  Text is modelled as `List Char`;
Python `str` helpers (`strip`, `split`, `splitlines`, …) are reproduced as
executable functions.  Modelling notes:

* `str.splitlines` is modelled on the line boundaries `\n`, `\r\n` and `\r`
  (the exotic unicode boundaries Python additionally recognises are omitted).
* Whitespace (`str.strip`, `str.split`, `\s`) is the ASCII whitespace set
  space, tab, `\n`, `\r`, vertical-tab, form-feed; `\w` and `str.lower` are
  modelled on ASCII.
* Python's `sorted` is stable; it is modelled by a stable insertion sort,
  which is extensionally the same function.
* `list(set(xs))` keeps one copy of each element in an unspecified order; it
  is modelled by first-occurrence deduplication.  Every consumer in the
  source (membership counting and `len`) is order-insensitive.
* The fuzzy-match threshold `max(len(key_patterns) * 0.7, 2)` is computed by
  the source in IEEE doubles and compared against an integer score; it is
  modelled by the exact rational comparison `10*score ≥ 7*N ∧ score ≥ 2`,
  which agrees with the double computation for every feasible pattern count.
-/

abbrev Str := List Char

/-- ASCII whitespace, the character class Python's `str.strip()` /
`str.split()` / `\s` use (restricted to ASCII). -/
def isPySpace (c : Char) : Bool :=
  c = ' ' || c = '\t' || c = '\n' || c = '\r' || c = Char.ofNat 11 || c = Char.ofNat 12

/-- Characters stripped by Python's `rstrip('\n\r')`. -/
def isNlCr (c : Char) : Bool :=
  c = '\n' || c = '\r'

/-- Strip characters satisfying `p` from the right end, like `str.rstrip`. -/
def rstripBy (p : Char → Bool) (l : Str) : Str :=
  (l.reverse.dropWhile p).reverse

/-- Strip characters satisfying `p` from the left end, like `str.lstrip`. -/
def lstripBy (p : Char → Bool) (l : Str) : Str :=
  l.dropWhile p

/-- Python `str.strip()` (ASCII whitespace). -/
def stripWs (l : Str) : Str :=
  rstripBy isPySpace (lstripBy isPySpace l)

/-- Python `str.lstrip()` (ASCII whitespace). -/
def lstripWs (l : Str) : Str :=
  lstripBy isPySpace l

/-- Python `str.rstrip()` (ASCII whitespace). -/
def rstripWs (l : Str) : Str :=
  rstripBy isPySpace l

/-- Python `str.rstrip('\n\r')`. -/
def rstripNl (l : Str) : Str :=
  rstripBy isNlCr l

/-- A line is blank when `line.strip()` is empty. -/
def isBlankLine (l : Str) : Bool :=
  (stripWs l).isEmpty

/-- Helper for `splitWs`: accumulates the current token (reversed). -/
def splitWsAux (cur : Str) : Str → List Str
  | [] => if cur.isEmpty then [] else [cur.reverse]
  | c :: rest =>
    if isPySpace c then
      if cur.isEmpty then splitWsAux [] rest else cur.reverse :: splitWsAux [] rest
    else splitWsAux (c :: cur) rest

/-- Python `str.split()` with no argument: split on whitespace runs,
dropping empty tokens. -/
def splitWs (l : Str) : List Str :=
  splitWsAux [] l

/-- Python `re.sub(r'\s+', ' ', s)` applied to an already-stripped string:
collapse interior whitespace runs to single spaces. -/
def collapseWs (l : Str) : Str :=
  List.intercalate [' '] (splitWs l)

/-- Helper for `splitlines` (no keepends): accumulates the current line
(reversed). -/
def splitlinesAux (cur : Str) : Str → List Str
  | [] => if cur.isEmpty then [] else [cur.reverse]
  | c :: rest =>
    if c = '\n' then cur.reverse :: splitlinesAux [] rest
    else if c = '\r' then
      match rest with
      | [] => [cur.reverse]
      | c2 :: rest2 =>
        if c2 = '\n' then cur.reverse :: splitlinesAux [] rest2
        else cur.reverse :: splitlinesAux [] (c2 :: rest2)
    else splitlinesAux (c :: cur) rest

/-- Python `str.splitlines()` on the boundaries `\n`, `\r\n`, `\r`. -/
def splitlines (l : Str) : List Str :=
  splitlinesAux [] l

/-- Helper for `splitlinesKeepends`. -/
def splitlinesKeepAux (cur : Str) : Str → List Str
  | [] => if cur.isEmpty then [] else [cur.reverse]
  | c :: rest =>
    if c = '\n' then (cur.reverse ++ ['\n']) :: splitlinesKeepAux [] rest
    else if c = '\r' then
      match rest with
      | [] => [cur.reverse ++ ['\r']]
      | c2 :: rest2 =>
        if c2 = '\n' then (cur.reverse ++ ['\r', '\n']) :: splitlinesKeepAux [] rest2
        else (cur.reverse ++ ['\r']) :: splitlinesKeepAux [] (c2 :: rest2)
    else splitlinesKeepAux (c :: cur) rest

/-- Python `str.splitlines(keepends=True)` on the boundaries `\n`, `\r\n`,
`\r`. -/
def splitlinesKeepends (l : Str) : List Str :=
  splitlinesKeepAux [] l

/-- Python substring test `needle in hay`. -/
def containsSub : Str → Str → Bool
  | [], needle => needle.isEmpty
  | c :: rest, needle => needle.isPrefixOf (c :: rest) || containsSub rest needle

/-- ASCII lower-casing of one character, as used by `str.lower()` on the
identifiers this program filters. -/
def lowerChar (c : Char) : Char :=
  if 65 ≤ c.toNat && c.toNat ≤ 90 then Char.ofNat (c.toNat + 32) else c

/-- ASCII `str.lower()`. -/
def lowerStr (l : Str) : Str :=
  l.map lowerChar

/-- Count occurrences of a character, Python `line.count(c)`. -/
def countChar (l : Str) (c : Char) : Nat :=
  l.countP (· = c)

/-- Deduplication keeping one copy of each element, modelling
`list(set(xs))` (see the header note on ordering). -/
def dedupKeep : List Str → List Str
  | [] => []
  | x :: xs => if x ∈ xs then dedupKeep xs else x :: dedupKeep xs

/-!
Embedding of `src/utils/code_matcher.py` (class `CodeMatcher`).  Console
diagnostics have no effect on results and are omitted; `debug_match_attempt`
is print-only and not modelled.
-/

/-- `CodeMatcher._normalize_line`: `line.rstrip('\n\r').rstrip()`. -/
def normalize_line (l : Str) : Str :=
  rstripWs (rstripNl l)

/-- `CodeMatcher._single_line_match`: the three whitespace-tolerance
strategies, in order. -/
def single_line_match (fileLine targetLine : Str) : Bool :=
  if (splitWs fileLine).flatten = (splitWs targetLine).flatten then true
  else if stripWs fileLine = stripWs targetLine then true
  else collapseWs (stripWs fileLine) = collapseWs (stripWs targetLine)

/-- Loop body of `CodeMatcher._lines_match_at_position`: an index past the
end of `fileLines` fails, otherwise each target line must match. -/
def lmatchAux (fileLines : List Str) : List Str → Nat → Bool
  | [], _ => true
  | t :: ts, idx =>
    match fileLines[idx]? with
    | none => false
    | some f => single_line_match f t && lmatchAux fileLines ts (idx + 1)

/-- `CodeMatcher._lines_match_at_position`. -/
def lines_match_at_position (fileLines targetLines : List Str) (startIdx : Nat) : Bool :=
  lmatchAux fileLines targetLines startIdx

/-- `CodeMatcher._calculate_end_index`: extend the end index by the number
of lines of the original target beyond the matched (non-blank) count. -/
def calculate_end_index (startIdx matchedLines : Nat) (originalTarget : Str) : Nat :=
  if matchedLines < (splitlines originalTarget).length then
    startIdx + matchedLines + ((splitlines originalTarget).length - matchedLines)
  else startIdx + matchedLines

/-- `CodeMatcher._find_exact_match`: first window (top-to-bottom) where all
target lines match; end index capped at file length.  The Python loop over
`range(len(file_lines) - len(target_lines) + 1)` is `List.range` of the
truncated difference, which is likewise empty when the target is longer
than the file. -/
def find_exact_match (fileLines targetLines : List Str) (originalTarget : Str) :
    Option (Nat × Nat) :=
  if targetLines.isEmpty then none
  else
    match (List.range (fileLines.length + 1 - targetLines.length)).find?
        (fun s => lines_match_at_position fileLines targetLines s) with
    | none => none
    | some s =>
      some (s, min (calculate_end_index s targetLines.length originalTarget) fileLines.length)

/-- The window text `' '.join(file_lines[s:s+m])` scored by the fuzzy pass. -/
def section_text (fileLines : List Str) (m s : Nat) : Str :=
  List.intercalate [' '] ((fileLines.drop s).take m)

/-- Fuzzy score of a window: how many key patterns occur in its joined
text. -/
def fuzzy_score (fileLines : List Str) (m : Nat) (keyPatterns : List Str) (s : Nat) : Nat :=
  keyPatterns.countP (fun p => containsSub (section_text fileLines m s) p)

/-- The source's `score >= max(len(key_patterns) * 0.7, 2)` as an exact
rational comparison (see header note). -/
def fuzzy_threshold_ok (patternCount score : Nat) : Bool :=
  decide (7 * patternCount ≤ 10 * score) && decide (2 ≤ score)

/-- The best-window loop of `CodeMatcher._find_fuzzy_match`: replace the
best candidate only on a strictly greater score that meets the threshold. -/
def fuzzy_loop (fileLines : List Str) (m : Nat) (keyPatterns : List Str) :
    List Nat → Option (Nat × Nat) → Nat → Option (Nat × Nat)
  | [], best, _ => best
  | s :: rest, best, bestScore =>
    let score := fuzzy_score fileLines m keyPatterns s
    if bestScore < score && fuzzy_threshold_ok keyPatterns.length score then
      fuzzy_loop fileLines m keyPatterns rest (some (s, s + m)) score
    else
      fuzzy_loop fileLines m keyPatterns rest best bestScore

/-- ASCII model of the `\w` character class. -/
def isWordChar (c : Char) : Bool :=
  c.isAlphanum || c = '_'

/-- Maximal runs of characters satisfying `p` (helper for `re.findall`). -/
def tokensByAux (p : Char → Bool) (cur : Str) : Str → List Str
  | [] => if cur.isEmpty then [] else [cur.reverse]
  | c :: rest =>
    if p c then tokensByAux p (c :: cur) rest
    else if cur.isEmpty then tokensByAux p [] rest
    else cur.reverse :: tokensByAux p [] rest

/-- `re.findall(r'\w+', line)`. -/
def word_tokens (l : Str) : List Str :=
  tokensByAux isWordChar [] l

/-- The quote character class of the pattern: double or single quote. -/
def isQuoteChar (c : Char) : Bool :=
  c = Char.ofNat 34 || c = Char.ofNat 39

/-- Scanner for `re.findall(r'["\']([^"\']+)["\']', line)`:
leftmost non-overlapping quote pairs with a non-empty inner run of
non-quote characters; a closing quote directly after an opening one starts
a fresh attempt, matching the regex's one-step retry. -/
def quotedAux (pending : Str) (inside : Bool) : Str → List Str
  | [] => []
  | c :: rest =>
    if inside then
      if isQuoteChar c then
        if pending.isEmpty then quotedAux [] true rest
        else pending.reverse :: quotedAux [] false rest
      else quotedAux (c :: pending) true rest
    else
      if isQuoteChar c then quotedAux [] true rest
      else quotedAux [] false rest

/-- Quoted-string contents extracted by `CodeMatcher._extract_key_patterns`. -/
def quoted_tokens (l : Str) : List Str :=
  quotedAux [] false l

/-- Length of `dropWhile` never exceeds the input's length. -/
theorem dropWhileLenLe {α : Type} (p : α → Bool) : ∀ l : List α,
    (l.dropWhile p).length ≤ l.length
  | [] => Nat.le_refl _
  | a :: l => by
    rw [List.dropWhile_cons]
    split
    · exact Nat.le_trans (dropWhileLenLe p l) (Nat.le_succ _)
    · exact Nat.le_refl _

/-- Scanner for `re.findall(r'\d+\.\d+(?:\.\d+)?', line)`: dotted version
numbers, greedy digit runs, optional third component, resuming after each
match as `re.findall` does.  The recursion is driven by a fuel counter so
that the kernel can evaluate it; every recursive call consumes at least
one character, so fuel equal to the input length (as `version_tokens`
supplies) never runs out. -/
def versionFuel : Nat → Str → List Str
  | 0, _ => []
  | _, [] => []
  | fuel + 1, c :: rest =>
    if c.isDigit then
      match (c :: rest).dropWhile Char.isDigit with
      | '.' :: r2 =>
        if (r2.takeWhile Char.isDigit).isEmpty then versionFuel fuel r2
        else
          let d1 := (c :: rest).takeWhile Char.isDigit
          let d2 := r2.takeWhile Char.isDigit
          match r2.dropWhile Char.isDigit with
          | '.' :: r3 =>
            if (r3.takeWhile Char.isDigit).isEmpty then
              (d1 ++ '.' :: d2) :: versionFuel fuel ('.' :: r3)
            else
              (d1 ++ '.' :: d2 ++ '.' :: r3.takeWhile Char.isDigit) ::
                versionFuel fuel (r3.dropWhile Char.isDigit)
          | r2' => (d1 ++ '.' :: d2) :: versionFuel fuel r2'
      | r1 => versionFuel fuel r1
    else versionFuel fuel rest

/-- The version-number findall of `CodeMatcher._extract_key_patterns`. -/
def version_tokens (l : Str) : List Str :=
  versionFuel l.length l

/-- The stoplist of `CodeMatcher._extract_key_patterns`. -/
def generic_words : List Str :=
  (["the", "and", "or", "if", "then", "else", "for", "while", "do", "return",
    "public", "private", "static", "final", "class", "import", "package"]).map String.toList

/-- `CodeMatcher._extract_key_patterns`: word tokens, quoted-string
contents and dotted version numbers from every line, minus stoplisted and
single-character tokens, deduplicated. -/
def extract_key_patterns (targetLines : List Str) : List Str :=
  let keyPatterns := targetLines.flatMap
    (fun line => word_tokens line ++ quoted_tokens line ++ version_tokens line)
  let filtered := keyPatterns.filter
    (fun p => !(generic_words.contains (lowerStr p)) && decide (1 < p.length))
  dedupKeep filtered

/-- `CodeMatcher._find_fuzzy_match`. -/
def find_fuzzy_match (fileLines targetLines : List Str) : Option (Nat × Nat) :=
  if targetLines.isEmpty then none
  else
    let keyPatterns := extract_key_patterns targetLines
    if keyPatterns.isEmpty then none
    else
      fuzzy_loop fileLines targetLines.length keyPatterns
        (List.range (fileLines.length + 1 - targetLines.length)) none 0

/-- `CodeMatcher.find_content_match`: blank target fails; exact pass first
(a returned pair is always truthy in Python, being a non-empty tuple), then
the fuzzy fallback. -/
def find_content_match (fileLines : List Str) (targetContent : Str) : Option (Nat × Nat) :=
  if (stripWs targetContent).isEmpty then none
  else
    let targetLines := ((splitlines targetContent).filter
      (fun line => !(stripWs line).isEmpty)).map normalize_line
    let normalizedFileLines := fileLines.map normalize_line
    match find_exact_match normalizedFileLines targetLines targetContent with
    | some r => some r
    | none => find_fuzzy_match normalizedFileLines targetLines

/-- `CodeMatcher._extract_base_indentation`: minimum leading-whitespace
width among non-blank lines, realised as the leading slice of the first
non-blank line. -/
def extract_base_indentation (originalLines : List Str) : Str :=
  if originalLines.isEmpty then []
  else
    let indents := originalLines.filterMap (fun line =>
      if !(stripWs line).isEmpty then
        some ((rstripNl line).length - (lstripWs (rstripNl line)).length)
      else none)
    match indents with
    | [] => []
    | i :: is =>
      let minIndent := is.foldl min i
      match originalLines.find? (fun line => !(stripWs line).isEmpty) with
      | some line => (rstripNl line).take minIndent
      | none => []

/-- The indentation step for one line of the `preserve_indentation` loop:
prefix a non-blank line with the base indentation unless it already
carries it; pass blank lines through. -/
def indentLine (baseIndent : Str) (line : Str) : Str :=
  if !(stripWs line).isEmpty then
    if baseIndent.length ≤ line.length - (lstripWs line).length
        && baseIndent.isPrefixOf line then line
    else if 0 < line.length - (lstripWs line).length then baseIndent ++ line
    else baseIndent ++ stripWs line
  else line

/-- The terminator step of the `preserve_indentation` loop: append `\n`
unless the line already ends with it. -/
def terminateLine (l : Str) : Str :=
  if l.getLast? = some '\n' then l else l ++ ['\n']

/-- The per-line loop tail of `CodeMatcher.preserve_indentation`. -/
def apply_base_indent (baseIndent : Str) (newLines : List Str) : List Str :=
  newLines.map (fun line => terminateLine (indentLine baseIndent line))

/-- `CodeMatcher.preserve_indentation`.  The keyword arguments of the
Python signature become `Option` parameters; `original_lines[start_idx]`
is modelled with a default (every caller in the source passes an in-range
index, and an out-of-range one raises and is caught as a failed change). -/
def preserve_indentation (newContent : Str) (baseIndentation : Option Str)
    (originalLines : Option (List Str)) (startIdx endIdx : Option Nat) : List Str :=
  if (stripWs newContent).isEmpty then []
  else
    let newLines := splitlines newContent
    if newLines.isEmpty then []
    else
      match baseIndentation, originalLines, startIdx, endIdx with
      | some bi, _, _, _ => apply_base_indent bi newLines
      | none, some ol, some si, some ei =>
        if ei - si = 1 && newLines.length = 1 then
          let originalLine := rstripNl (ol.getD si [])
          let indentStr := originalLine.take
            (originalLine.length - (lstripWs originalLine).length)
          [indentStr ++ stripWs (newLines.headD []) ++ ['\n']]
        else
          apply_base_indent (extract_base_indentation ((ol.drop si).take (ei - si))) newLines
      | none, _, _, _ => apply_base_indent [] newLines

/-!
Embedding of `src/writers/change_writer.py` (class `ChangeWriter`) together
with the change record it consumes (`src/models/response.py` plus the
`change_type` tag the writer reads from it).  A file is modelled by its
on-disk content (`Str`); reading yields `splitlinesKeepends content` and a
write stores the concatenation of the line buffer.  Disk traffic is
recorded as a trace of `IOEv` events; reads and writes themselves are
assumed to succeed (`IOError` handling is outside these claims).  The
`reason` and `file_path` fields play no role in per-file application and
are omitted.
-/

/-- The line range of `models.response.Location` (1-based, inclusive),
kept as integers exactly as the Python model holds them. -/
structure Location where
  start_line : Int
  end_line : Int
deriving Repr, DecidableEq

/-- A change record as `ChangeWriter` consumes it. -/
structure Change where
  change_type : Str
  location : Location
  before : Str
  after : Str
deriving Repr, DecidableEq

/-- One disk access of the writer. -/
inductive IOEv where
  | readEv
  | writeEv
deriving Repr, DecidableEq

open IOEv

/-- `ChangeWriter._validate_change_bounds`. -/
def validate_change_bounds (change : Change) (totalLines : Nat) : Bool :=
  if change.location.start_line < 1 || change.location.start_line > (totalLines : Int) then
    false
  else if change.location.end_line < 1 || change.location.end_line > (totalLines : Int) then
    false
  else if change.location.start_line > change.location.end_line then
    false
  else true

/-- Ordered insertion of one indentation count into the insertion-ordered
counting list, modelling a Python dict used as a counter. -/
def bumpCount (k : Nat) : List (Nat × Nat) → List (Nat × Nat)
  | [] => [(k, 1)]
  | (k', n) :: rest => if k = k' then (k', n + 1) :: rest else (k', n) :: bumpCount k rest

/-- The five offsets `range(-2, 3)` scanned around an insertion point. -/
def insertOffsets : List Int :=
  [-2, -1, 0, 1, 2]

/-- Nearby-line indentation census of
`ChangeWriter._detect_insert_indentation`. -/
def indentCounts (lines : List Str) (insertIdx : Nat) : List (Nat × Nat) :=
  insertOffsets.foldl (fun acc offset =>
    let lineIdx : Int := (insertIdx : Int) + offset
    if 0 ≤ lineIdx && lineIdx < (lines.length : Int) then
      let line := rstripNl (lines.getD lineIdx.toNat [])
      if !(stripWs line).isEmpty then
        bumpCount (line.length - (lstripWs line).length) acc
      else acc
    else acc) []

/-- `ChangeWriter._detect_insert_indentation`: majority indentation among
the nearest five lines (first-seen wins ties, as Python's `max` over an
insertion-ordered dict does), returning the leading slice of the first
nearby line carrying it. -/
def detect_insert_indentation (lines : List Str) (insertIdx : Nat) : Str :=
  let counts := indentCounts lines insertIdx
  match counts with
  | [] => []
  | c :: cs =>
    let best := (cs.foldl (fun m kv => max m kv.2) c.2)
    match counts.find? (fun kv => kv.2 = best) with
    | none => []
    | some (mostCommon, _) =>
      let found := insertOffsets.foldl (fun acc offset =>
        match acc with
        | some r => some r
        | none =>
          let lineIdx : Int := (insertIdx : Int) + offset
          if 0 ≤ lineIdx && lineIdx < (lines.length : Int) then
            let line := rstripNl (lines.getD lineIdx.toNat [])
            if !(stripWs line).isEmpty &&
                line.length - (lstripWs line).length = mostCommon then
              some (line.take mostCommon)
            else none
          else none) none
      found.getD []

/-- `ChangeWriter._apply_insert_by_line_number`: `some` is the line buffer
the single terminal `_write_file` persists, `none` a bounds rejection with
no write.  (The local `after_content` variable of the source is computed
and never used; it is omitted.) -/
def apply_insert_by_line_number (lines : List Str) (change : Change) : Option (List Str) :=
  if !validate_change_bounds change lines.length then none
  else
    let startIdx := (change.location.start_line - 1).toNat
    let baseIndentation := detect_insert_indentation lines startIdx
    let newLines := preserve_indentation change.after (some baseIndentation) none none none
    some (lines.take startIdx ++ newLines ++ lines.drop startIdx)

/-- `ChangeWriter._try_line_number_approach`: `some` is the written buffer,
`none` means bounds or content verification failed (no write). -/
def try_line_number_approach (lines : List Str) (change : Change) : Option (List Str) :=
  if !validate_change_bounds change lines.length then none
  else
    let startIdx := (change.location.start_line - 1).toNat
    let endIdx := change.location.end_line.toNat
    let actualContent := rstripBy (· = '\n') ((lines.drop startIdx).take (endIdx - startIdx)).flatten
    let expectedContent := rstripBy (· = '\n') change.before
    if actualContent = expectedContent then
      if change.change_type = "update".toList then
        some (lines.take startIdx ++
          preserve_indentation change.after none (some lines) (some startIdx) (some endIdx) ++
          lines.drop endIdx)
      else if change.change_type = "delete".toList then
        some (lines.take startIdx ++ lines.drop endIdx)
      else some lines
    else none

/-- `ChangeWriter._apply_by_content_matching`: `some` is the written
buffer, `none` means the content matcher found nothing (no write). -/
def apply_by_content_matching (lines : List Str) (change : Change) : Option (List Str) :=
  match find_content_match lines change.before with
  | none => none
  | some (startIdx, endIdx) =>
    if change.change_type = "update".toList then
      some (lines.take startIdx ++
        preserve_indentation change.after none (some lines) (some startIdx) (some endIdx) ++
        lines.drop endIdx)
    else if change.change_type = "delete".toList then
      some (lines.take startIdx ++ lines.drop endIdx)
    else some lines

/-- `ChangeWriter._apply_single_change`: read the file, dispatch on the
change type (inserts by line number; updates and deletes by line number
first, then content matching), and write on success.  Returns the success
flag, the resulting on-disk content and the disk-event trace. -/
def apply_single_change (content : Str) (change : Change) : Bool × Str × List IOEv :=
  let lines := splitlinesKeepends content
  if change.change_type = "insert".toList then
    match apply_insert_by_line_number lines change with
    | some newLines => (true, newLines.flatten, [readEv, writeEv])
    | none => (false, content, [readEv])
  else if change.change_type = "update".toList || change.change_type = "delete".toList then
    match try_line_number_approach lines change with
    | some newLines => (true, newLines.flatten, [readEv, writeEv])
    | none =>
      match apply_by_content_matching lines change with
      | some newLines => (true, newLines.flatten, [readEv, writeEv])
      | none => (false, content, [readEv])
  else (false, content, [readEv])

/-- One iteration of the `_apply_all_changes_batch` loop: attempt the
change against the current on-disk content, bump the applied count on
success, extend the trace. -/
def batch_step (acc : Nat × Str × List IOEv) (change : Change) : Nat × Str × List IOEv :=
  let r := apply_single_change acc.2.1 change
  (acc.1 + (if r.1 then 1 else 0), r.2.1, acc.2.2 ++ r.2.2)

/-- `ChangeWriter._apply_all_changes_batch`: apply every change in order,
counting successes; returns the applied count, the final on-disk content
and the concatenated disk-event trace. -/
def apply_all_changes_batch (content : Str) (changes : List Change) : Nat × Str × List IOEv :=
  changes.foldl batch_step (0, content, [])

/-!
Embedding of `src/utils/code_extractor.py` (`CodeBlockExtractor` and
`CodeBlock`).  The keyword arguments are regular-expression patterns tested
by `re.search(keyword, line)`; the regex engine is opaque to these claims,
so the extractor is parametrised over an arbitrary matcher
`reSearch : pattern -> line -> Bool` and every theorem holds for all
matchers.  The fixed patterns of the block-boundary scan are implemented
directly.  `_validate_block_sizes` only prints warnings and never alters
the returned list, so it is not modelled.  Brace characters are written
via `Char.ofNat` (123 is the opening and 125 the closing brace).
-/

/-- The extracted-block record (`code_extractor.CodeBlock`). -/
structure CodeBlock where
  content : Str
  start_line : Nat
  end_line : Nat
  file_path : Str
  matched_keywords : List Str
deriving Repr, DecidableEq

/-- `CodeBlockExtractor._find_keyword_matches`: first matching pattern per
line, 1-based line numbers. -/
def find_keyword_matches (reSearch : Str → Str → Bool) (content : Str)
    (keywords : List Str) : List (Nat × Str) :=
  (splitlines content).enum.filterMap (fun p =>
    match keywords.find? (fun k => reSearch k p.2) with
    | some k => some (p.1 + 1, k)
    | none => none)

/-- `re.search(r"[{]\s*$", line)` on an already-stripped line: the line
ends with an opening brace. -/
def endsWithOpenBrace (l : Str) : Bool :=
  l.getLast? = some (Char.ofNat 123)

/-- Starts with the given word followed by a whitespace character
(`^package\s`, `^import\s`). -/
def startsKwSpace (w : String) (l : Str) : Bool :=
  w.toList.isPrefixOf l &&
    (match l.drop w.toList.length with
     | c :: _ => isPySpace c
     | [] => false)

/-- `re.search(r"[}]\s*$|^package\s|^import\s|^@\w+", line)` on an
already-stripped line. -/
def isBoundaryLine (l : Str) : Bool :=
  l.getLast? = some (Char.ofNat 125) ||
  startsKwSpace "package" l || startsKwSpace "import" l ||
  (match l with
   | a :: b :: _ => a = '@' && isWordChar b
   | _ => false)

/-- Backward scan of `CodeBlockExtractor._find_block_start` over indices
`line_num - 1 .. 0`; `none` stands for the fallback to the matched line
(reached on a boundary hit or scan exhaustion alike). -/
def find_block_start_go (lines : List Str) : Nat → Option Nat
  | 0 => none
  | i + 1 =>
    let line := stripWs (lines.getD i [])
    if endsWithOpenBrace line then some (i + 1)
    else if isBoundaryLine line then none
    else find_block_start_go lines i

/-- `CodeBlockExtractor._find_block_start`. -/
def find_block_start (lines : List Str) (lineNum : Nat) : Nat :=
  (find_block_start_go lines lineNum).getD lineNum

/-- State machine for one round of quoted-substring removal,
`re.sub(r'"[^"]*"', "", line)` (and the single-quote analogue): drop each
leftmost quote pair including an arbitrary run of non-quote characters; an
unclosed trailing quote is kept verbatim. -/
def removeQuotedAux (q : Char) (pending : Str) (inside : Bool) : Str → Str
  | [] => if inside then pending.reverse else []
  | c :: rest =>
    if inside then
      if c = q then removeQuotedAux q [] false rest
      else removeQuotedAux q (c :: pending) true rest
    else
      if c = q then removeQuotedAux q [c] true rest
      else c :: removeQuotedAux q [] false rest

/-- Quoted-substring removal for one quote character. -/
def removeQuoted (q : Char) (l : Str) : Str :=
  removeQuotedAux q [] false l

/-- `CodeBlockExtractor._is_in_string_or_comment`. -/
def is_in_string_or_comment (line : Str) : Bool :=
  let lineNoStrings := removeQuoted (Char.ofNat 39) (removeQuoted (Char.ofNat 34) line)
  let stripped := stripWs lineNoStrings
  if "//".toList.isPrefixOf stripped || "/*".toList.isPrefixOf stripped then true
  else
    let originalBraces := countChar line (Char.ofNat 123) + countChar line (Char.ofNat 125)
    let remainingBraces :=
      countChar lineNoStrings (Char.ofNat 123) + countChar lineNoStrings (Char.ofNat 125)
    decide (0 < originalBraces) && decide (remainingBraces = 0)

/-- Forward scan of `CodeBlockExtractor._find_block_end` with a running
(possibly negative) brace balance; `none` stands for the fallback to the
start line. -/
def find_block_end_go : List Str → Nat → Int → Bool → Option Nat
  | [], _, _, _ => none
  | line :: rest, i, braceCount, foundOpening =>
    if !is_in_string_or_comment line then
      let braceCount' := braceCount +
        (countChar line (Char.ofNat 123) : Int) - (countChar line (Char.ofNat 125) : Int)
      let foundOpening' := foundOpening || decide (0 < countChar line (Char.ofNat 123))
      if foundOpening' && braceCount' = 0 then some (i + 1)
      else find_block_end_go rest (i + 1) braceCount' foundOpening'
    else find_block_end_go rest (i + 1) braceCount foundOpening

/-- `CodeBlockExtractor._find_block_end`. -/
def find_block_end (lines : List Str) (startLine : Nat) : Nat :=
  (find_block_end_go (lines.drop (startLine - 1)) (startLine - 1) 0 false).getD startLine

/-- `CodeBlockExtractor._find_enclosing_block`; the guard mirrors the
Python integer truthiness test `start_line and end_line and
start_line < end_line`. -/
def find_enclosing_block (content : Str) (m : Nat × Str) : Nat × Nat × Str :=
  if find_block_start (splitlines content) m.1 ≠ 0 ∧
      find_block_end (splitlines content) (find_block_start (splitlines content) m.1) ≠ 0 ∧
      find_block_start (splitlines content) m.1 <
        find_block_end (splitlines content) (find_block_start (splitlines content) m.1) then
    (find_block_start (splitlines content) m.1,
      find_block_end (splitlines content) (find_block_start (splitlines content) m.1), m.2)
  else (m.1, m.1, m.2)

/-- Stable sort by start line, modelling `sorted(blocks, key=lambda x: x[0])`
(Python's sort is stable; insertion sort by the start component is the same
function). -/
def sortBlocksByStart (blocks : List (Nat × Nat × Str)) : List (Nat × Nat × Str) :=
  List.insertionSort (fun b1 b2 => b1.1 ≤ b2.1) blocks

/-- The merge loop of `CodeBlockExtractor._merge_blocks` over the sorted
tail, carrying the current block and its keyword list. -/
def merge_blocks_go : List (Nat × Nat × Str) → Nat → Nat → List Str →
    List (Nat × Nat × List Str)
  | [], cs, ce, cks => [(cs, ce, cks)]
  | (s, e, k) :: rest, cs, ce, cks =>
    if s ≤ ce + 2 then
      merge_blocks_go rest cs (max ce e) (if k ∈ cks then cks else cks ++ [k])
    else (cs, ce, cks) :: merge_blocks_go rest s e [k]

/-- `CodeBlockExtractor._merge_blocks`. -/
def merge_blocks (blocks : List (Nat × Nat × Str)) : List (Nat × Nat × List Str) :=
  match blocks with
  | [] => []
  | [(s, e, k)] => [(s, e, [k])]
  | _ =>
    match sortBlocksByStart blocks with
    | [] => []
    | (s, e, k) :: rest => merge_blocks_go rest s e [k]

/-- `CodeBlockExtractor._extract_block_content`:
`"\n".join(lines[start_line - 1 : end_line])`. -/
def extract_block_content (content : Str) (startLine endLine : Nat) : Str :=
  List.intercalate ['\n']
    (((splitlines content).drop (startLine - 1)).take (endLine - (startLine - 1)))

/-- `CodeBlockExtractor.extract_blocks`.  Every enclosing-block result is a
non-empty tuple, hence truthy, so each keyword match contributes one raw
block. -/
def extract_blocks (reSearch : Str → Str → Bool) (filePath : Str) (content : Str)
    (keywords : List Str) : List CodeBlock :=
  let keywordMatches := find_keyword_matches reSearch content keywords
  if keywordMatches.isEmpty then []
  else
    let rawBlocks := keywordMatches.map (find_enclosing_block content)
    let mergedBlocks := merge_blocks rawBlocks
    mergedBlocks.map (fun mb =>
      ⟨extract_block_content content mb.1 mb.2.1, mb.1, mb.2.1, filePath, mb.2.2⟩)

/-!
Shared lemmas about the writer, followed by the per-claim theorems.
-/

/-- Every single-change attempt performs exactly one read, and exactly one
write iff it succeeds. -/
theorem apply_single_change_shape (content : Str) (change : Change) :
    ((apply_single_change content change).1 = true ∧
      (apply_single_change content change).2.2 = [IOEv.readEv, IOEv.writeEv]) ∨
    ((apply_single_change content change).1 = false ∧
      (apply_single_change content change).2.2 = [IOEv.readEv]) := by
  unfold apply_single_change
  split_ifs
  · rcases h : apply_insert_by_line_number (splitlinesKeepends content) change with _ | ls <;>
      simp [h]
  · rcases h : try_line_number_approach (splitlinesKeepends content) change with _ | ls
    · rcases h2 : apply_by_content_matching (splitlinesKeepends content) change with _ | ls2 <;>
        simp [h, h2]
    · simp [h]
  · simp

/-- Trace accounting for the batch loop: one read per change, one write
per newly applied change. -/
theorem batch_counts (changes : List Change) :
    ∀ (n : Nat) (content : Str) (evs : List IOEv),
      (changes.foldl batch_step (n, content, evs)).2.2.count IOEv.readEv =
        evs.count IOEv.readEv + changes.length ∧
      (changes.foldl batch_step (n, content, evs)).2.2.count IOEv.writeEv + n =
        evs.count IOEv.writeEv + (changes.foldl batch_step (n, content, evs)).1 ∧
      n ≤ (changes.foldl batch_step (n, content, evs)).1 := by
  induction changes with
  | nil => intro n content evs; simp
  | cons ch rest ih =>
    intro n content evs
    have hstep : batch_step (n, content, evs) ch =
        (n + (if (apply_single_change content ch).1 then 1 else 0),
         (apply_single_change content ch).2.1,
         evs ++ (apply_single_change content ch).2.2) := rfl
    rcases apply_single_change_shape content ch with ⟨h1, h2⟩ | ⟨h1, h2⟩
    · rw [List.foldl_cons, hstep, h1, h2]
      simp only [if_true]
      rcases ih (n + 1) (apply_single_change content ch).2.1
          (evs ++ [IOEv.readEv, IOEv.writeEv]) with ⟨ihr, ihw, ihn⟩
      simp [List.count_append] at ihr ihw ⊢
      omega
    · rw [List.foldl_cons, hstep, h1, h2]
      simp only [Bool.false_eq_true, if_false, Nat.add_zero]
      rcases ih n (apply_single_change content ch).2.1
          (evs ++ [IOEv.readEv]) with ⟨ihr, ihw, ihn⟩
      simp [List.count_append] at ihr ihw ⊢
      omega

/-- Characterisation of `_validate_change_bounds`: both endpoints lie in
`[1, total_lines]` and the range is non-empty. -/
theorem validate_bounds_iff (change : Change) (n : Nat) :
    validate_change_bounds change n = true ↔
      1 ≤ change.location.start_line ∧ change.location.start_line ≤ (n : Int) ∧
      1 ≤ change.location.end_line ∧ change.location.end_line ≤ (n : Int) ∧
      change.location.start_line ≤ change.location.end_line := by
  unfold validate_change_bounds
  split_ifs with h1 h2 h3
  · simp only [Bool.or_eq_true, decide_eq_true_eq] at h1
    simp only [Bool.false_eq_true, false_iff]
    omega
  · simp only [Bool.or_eq_true, decide_eq_true_eq] at h2
    simp only [Bool.false_eq_true, false_iff]
    omega
  · simp only [Bool.false_eq_true, false_iff]
    omega
  · simp only [Bool.or_eq_true, decide_eq_true_eq, not_or] at h1 h2
    constructor
    · intro _
      omega
    · intro _
      rfl

/-- C2 counterexample: a batch pass over two applicable changes of one file
reads the file twice and writes it twice — not once per pass as claimed. -/
theorem c2_read_write_once_counterexample :
    apply_all_changes_batch ("aaa\nbbb\n".toList)
      [⟨"update".toList, ⟨1, 1⟩, "aaa".toList, "xxx".toList⟩,
       ⟨"update".toList, ⟨2, 2⟩, "bbb".toList, "yyy".toList⟩] =
      (2, "xxx\nyyy\n".toList, [IOEv.readEv, IOEv.writeEv, IOEv.readEv, IOEv.writeEv]) ∧
    ¬ ([IOEv.readEv, IOEv.writeEv, IOEv.readEv, IOEv.writeEv].count IOEv.readEv = 1 ∧
       [IOEv.readEv, IOEv.writeEv, IOEv.readEv, IOEv.writeEv].count IOEv.writeEv = 1) := by
  decide

/-- C2 (amended): in a per-file batch pass the applicator reads the file
from disk once per change and writes it back once per successfully applied
change (each successful change is persisted before the next is attempted),
rather than reading and writing exactly once for the whole pass. -/
theorem c2_per_change_read_write (content : Str) (changes : List Change) :
    (apply_all_changes_batch content changes).2.2.count IOEv.readEv = changes.length ∧
    (apply_all_changes_batch content changes).2.2.count IOEv.writeEv =
      (apply_all_changes_batch content changes).1 := by
  rcases batch_counts changes 0 content [] with ⟨hr, hw, _⟩
  unfold apply_all_changes_batch
  simp at hr hw
  exact ⟨hr, hw⟩

/-- C5: on a 10-line file whose line 5 is `"    int x = 1;"`, an update
change for lines 5–5 with `before="int x = 1;"`, `after="int x = 2;"`
rewrites line 5 to `"    int x = 2;"` (4-space indentation preserved) and
leaves every other line unchanged (the line-number attempt fails on the
indentation difference and content matching relocates and applies it). -/
theorem c5_update_line5_preserves_rest :
    apply_single_change
      ("alpha\nbravo\ncharlie\ndelta\n    int x = 1;\nfoxtrot\ngolf\nhotel\nindia\njuliet\n".toList)
      ⟨"update".toList, ⟨5, 5⟩, "int x = 1;".toList, "int x = 2;".toList⟩ =
      (true,
       "alpha\nbravo\ncharlie\ndelta\n    int x = 2;\nfoxtrot\ngolf\nhotel\nindia\njuliet\n".toList,
       [IOEv.readEv, IOEv.writeEv]) := by
  decide

/-- C1 counterexample: an update whose `end_line` (5) exceeds the file's
total line count (2) is not rejected — the content-matching fallback
locates its `before` text and mutates the buffer (and the file). -/
theorem c1_bounds_mutation_counterexample :
    (splitlinesKeepends "aaa\nbbb\n".toList).length = 2 ∧
    apply_single_change ("aaa\nbbb\n".toList)
      ⟨"update".toList, ⟨1, 5⟩, "bbb".toList, "ccc".toList⟩ =
      (true, "aaa\nccc\n".toList, [IOEv.readEv, IOEv.writeEv]) ∧
    "aaa\nccc\n".toList ≠ "aaa\nbbb\n".toList := by
  decide

/-- C1 (amended): a change whose location has `start_line < 1` or
`end_line > total_lines` is rejected by the line-number resolution path:
an insert is rejected outright with the file unchanged and no write, while
an update or delete falls through to the content-matching fallback, which
may still apply it; only when content matching also fails is the file left
unchanged with no write. -/
theorem c1_bounds_rejection_amended (content : Str) (change : Change)
    (hb : change.location.start_line < 1 ∨
      change.location.end_line > ((splitlinesKeepends content).length : Int)) :
    (change.change_type = "insert".toList →
      apply_single_change content change = (false, content, [IOEv.readEv])) ∧
    ((change.change_type = "update".toList ∨ change.change_type = "delete".toList) →
      try_line_number_approach (splitlinesKeepends content) change = none ∧
      (apply_by_content_matching (splitlinesKeepends content) change = none →
        apply_single_change content change = (false, content, [IOEv.readEv]))) := by
  have hv : validate_change_bounds change (splitlinesKeepends content).length = false := by
    unfold validate_change_bounds
    split_ifs with h1 h2 h3
    · rfl
    · rfl
    · rfl
    · exfalso
      simp only [Bool.or_eq_true, decide_eq_true_eq] at h1 h2
      rcases hb with h | h
      · exact h1 (Or.inl h)
      · exact h2 (Or.inr h)
  constructor
  · intro hi
    simp [apply_single_change, hi, apply_insert_by_line_number, hv]
  · intro hud
    have ht : try_line_number_approach (splitlinesKeepends content) change = none := by
      simp [try_line_number_approach, hv]
    refine ⟨ht, fun hc => ?_⟩
    rcases hud with h | h <;>
      simp [apply_single_change, h, ht, hc, show ("update".toList ≠ "insert".toList) by decide,
        show ("delete".toList ≠ "insert".toList) by decide]

/-- C1 witness: a concrete bounds-violating update whose `before` text is
found nowhere leaves the file unchanged. -/
theorem c1_bounds_rejection_witness :
    try_line_number_approach (splitlinesKeepends "aaa\nbbb\n".toList)
      ⟨"update".toList, ⟨1, 5⟩, "zzz".toList, "www".toList⟩ = none ∧
    apply_single_change ("aaa\nbbb\n".toList)
      ⟨"update".toList, ⟨1, 5⟩, "zzz".toList, "www".toList⟩ =
      (false, "aaa\nbbb\n".toList, [IOEv.readEv]) := by
  have h := (c1_bounds_rejection_amended ("aaa\nbbb\n".toList)
    ⟨"update".toList, ⟨1, 5⟩, "zzz".toList, "www".toList⟩ (by decide)).2 (Or.inl rfl)
  exact ⟨h.1, h.2 (by decide)⟩

/-- C4 counterexample: inserting at `start_line = total_lines + 1`
(appending after the last line) is rejected by bounds validation, with no
write, contrary to the claimed acceptance of `[1, total_lines + 1]`. -/
theorem c4_insert_append_counterexample :
    (splitlinesKeepends "aaa\nbbb\n".toList).length = 2 ∧
    apply_single_change ("aaa\nbbb\n".toList)
      ⟨"insert".toList, ⟨3, 3⟩, [], "ccc".toList⟩ =
      (false, "aaa\nbbb\n".toList, [IOEv.readEv]) := by
  decide

/-- C4 (amended): insert bounds validation accepts `start_line` (and
`end_line`) only within `[1, total_lines]` with
`start_line ≤ end_line` — appending at `total_lines + 1` is rejected; a
bounds violation is rejected with no write; once bounds are valid the
insert always succeeds, placing the normalized new lines immediately
before the line at `start_line`. -/
theorem c4_insert_bounds_amended (content : Str) (change : Change)
    (hi : change.change_type = "insert".toList) :
    (validate_change_bounds change (splitlinesKeepends content).length = true ↔
      1 ≤ change.location.start_line ∧
      change.location.start_line ≤ ((splitlinesKeepends content).length : Int) ∧
      1 ≤ change.location.end_line ∧
      change.location.end_line ≤ ((splitlinesKeepends content).length : Int) ∧
      change.location.start_line ≤ change.location.end_line) ∧
    (validate_change_bounds change (splitlinesKeepends content).length = false →
      apply_single_change content change = (false, content, [IOEv.readEv])) ∧
    (validate_change_bounds change (splitlinesKeepends content).length = true →
      apply_single_change content change =
        (true,
         ((splitlinesKeepends content).take ((change.location.start_line - 1).toNat) ++
          preserve_indentation change.after
            (some (detect_insert_indentation (splitlinesKeepends content)
              ((change.location.start_line - 1).toNat))) none none none ++
          (splitlinesKeepends content).drop ((change.location.start_line - 1).toNat)).flatten,
         [IOEv.readEv, IOEv.writeEv])) := by
  refine ⟨validate_bounds_iff change (splitlinesKeepends content).length, ?_, ?_⟩
  · intro hv
    simp [apply_single_change, hi, apply_insert_by_line_number, hv]
  · intro hv
    simp [apply_single_change, hi, apply_insert_by_line_number, hv]

/-- C4 witness: a concrete in-bounds insert at line 2 of a two-line file
succeeds and places the new line before the old line 2. -/
theorem c4_insert_bounds_witness :
    validate_change_bounds ⟨"insert".toList, ⟨2, 2⟩, [], "ccc".toList⟩
      (splitlinesKeepends "aaa\nbbb\n".toList).length = true ∧
    apply_single_change ("aaa\nbbb\n".toList)
      ⟨"insert".toList, ⟨2, 2⟩, [], "ccc".toList⟩ =
      (true, "aaa\nccc\nbbb\n".toList, [IOEv.readEv, IOEv.writeEv]) := by
  constructor
  · decide
  · have h := (c4_insert_bounds_amended ("aaa\nbbb\n".toList)
      ⟨"insert".toList, ⟨2, 2⟩, [], "ccc".toList⟩ rfl).2.2 (by decide)
    rw [h]
    decide

/-!
Lemmas about stripping and line splitting, supporting the indentation and
matcher claims.
-/

/-- The head surviving `dropWhile` fails the predicate. -/
theorem head?_dropWhile_not {α : Type} (p : α → Bool) :
    ∀ (l : List α) (c : α), (l.dropWhile p).head? = some c → p c = false := by
  intro l
  induction l with
  | nil => intro c h; simp [List.dropWhile] at h
  | cons a l ih =>
    intro c h
    rw [List.dropWhile_cons] at h
    split at h
    · exact ih c h
    · next hpa =>
      simp only [List.head?_cons, Option.some.injEq] at h
      subst h
      exact Bool.not_eq_true _ ▸ hpa

/-- The last element surviving `rstripBy` fails the predicate. -/
theorem getLast?_rstripBy_not (p : Char → Bool) (l : Str) (c : Char)
    (h : (rstripBy p l).getLast? = some c) : p c = false := by
  unfold rstripBy at h
  rw [List.getLast?_reverse] at h
  exact head?_dropWhile_not p _ c h

/-- The last character of a non-empty `str.strip()` result is not
whitespace. -/
theorem getLast?_stripWs_not (l : Str) (c : Char) (h : (stripWs l).getLast? = some c) :
    isPySpace c = false :=
  getLast?_rstripBy_not _ _ _ h

/-- A `getLast?` value is a member. -/
theorem mem_of_getLast?_eq {α : Type} {l : List α} {a : α} (h : l.getLast? = some a) :
    a ∈ l := by
  obtain ⟨hne, ha⟩ := List.mem_getLast?_eq_getLast (show a ∈ l.getLast? from h)
  exact ha ▸ List.getLast_mem hne

/-- A list avoiding `'\n'` does not end in `'\n'`. -/
theorem getLast?_ne_nl_of_not_mem {l : Str} (h : '\n' ∉ l) : l.getLast? ≠ some '\n' :=
  fun hc => h (mem_of_getLast?_eq hc)

/-- If every character is whitespace, `str.strip()` is empty. -/
theorem stripWs_eq_nil_of_all {l : Str} (h : ∀ c ∈ l, isPySpace c = true) :
    stripWs l = [] := by
  unfold stripWs rstripBy lstripBy
  have h1 : l.dropWhile isPySpace = [] := List.dropWhile_eq_nil_iff.mpr h
  rw [h1]
  rfl

/-- If `str.strip()` is empty, every character is whitespace. -/
theorem all_of_stripWs_eq_nil {l : Str} (h : stripWs l = []) :
    ∀ c ∈ l, isPySpace c = true := by
  intro c hc
  unfold stripWs rstripBy lstripBy at h
  rw [List.reverse_eq_nil_iff] at h
  have h2 := List.dropWhile_eq_nil_iff.mp h
  rcases (List.mem_append.mp
    ((List.takeWhile_append_dropWhile (p := isPySpace) (l := l)).symm ▸ hc)) with h3 | h3
  · exact List.mem_takeWhile_imp h3
  · exact h2 c (List.mem_reverse.mpr h3)

/-- Unfolding equation of `splitlinesAux` at the end of input. -/
theorem splitlinesAux_nil_eq (cur : Str) :
    splitlinesAux cur [] = if cur.isEmpty then [] else [cur.reverse] := by
  conv_lhs => unfold splitlinesAux

/-- Unfolding equation of `splitlinesAux` at a `\n` boundary. -/
theorem splitlinesAux_cons_nl (cur rest : Str) :
    splitlinesAux cur ('\n' :: rest) = cur.reverse :: splitlinesAux [] rest := by
  conv_lhs => unfold splitlinesAux
  rw [if_pos rfl]

/-- Unfolding equation of `splitlinesAux` at a `\r\n` boundary. -/
theorem splitlinesAux_cons_crlf (cur rest : Str) :
    splitlinesAux cur ('\r' :: '\n' :: rest) = cur.reverse :: splitlinesAux [] rest := by
  conv_lhs => unfold splitlinesAux
  rw [if_neg (by decide), if_pos rfl]
  split
  · next heq => exact absurd heq (by simp)
  · next c2 rest2 heq =>
    injection heq with hc hr
    subst hc
    subst hr
    rw [if_pos rfl]

/-- Unfolding equation of `splitlinesAux` at a final `\r`. -/
theorem splitlinesAux_cons_cr_nil (cur : Str) :
    splitlinesAux cur ['\r'] = [cur.reverse] := by
  conv_lhs => unfold splitlinesAux
  rw [if_neg (by decide), if_pos rfl]

/-- Unfolding equation of `splitlinesAux` at a `\r` boundary not followed
by `\n`. -/
theorem splitlinesAux_cons_cr (cur : Str) (c2 : Char) (rest2 : Str) (hc2 : c2 ≠ '\n') :
    splitlinesAux cur ('\r' :: c2 :: rest2) = cur.reverse :: splitlinesAux [] (c2 :: rest2) := by
  conv_lhs => unfold splitlinesAux
  rw [if_neg (by decide), if_pos rfl]
  split
  · next heq => exact absurd heq (by simp)
  · next c3 rest3 heq =>
    injection heq with hc hr
    subst hc
    subst hr
    rw [if_neg hc2]

/-- Unfolding equation of `splitlinesAux` on an ordinary character. -/
theorem splitlinesAux_cons_other (cur : Str) (c : Char) (rest : Str)
    (h1 : c ≠ '\n') (h2 : c ≠ '\r') :
    splitlinesAux cur (c :: rest) = splitlinesAux (c :: cur) rest := by
  conv_lhs => unfold splitlinesAux
  rw [if_neg h1, if_neg h2]

/-- No output line of `splitlinesAux` contains a line-boundary character,
provided the accumulator holds none. -/
theorem splitlinesAux_no_nl : ∀ (cur l : Str), '\n' ∉ cur → '\r' ∉ cur →
    ∀ line ∈ splitlinesAux cur l, '\n' ∉ line ∧ '\r' ∉ line := by
  intro cur l
  induction cur, l using splitlinesAux.induct with
  | case1 cur hemp =>
    intro h1 h2 line hl
    rw [splitlinesAux_nil_eq, if_pos hemp] at hl
    simp at hl
  | case2 cur hemp =>
    intro h1 h2 line hl
    rw [splitlinesAux_nil_eq, if_neg hemp] at hl
    simp only [List.mem_singleton] at hl
    subst hl
    simp [h1, h2]
  | case3 cur rest ih =>
    intro h1 h2 line hl
    rw [splitlinesAux_cons_nl] at hl
    rcases List.mem_cons.mp hl with h | h
    · subst h
      simp [h1, h2]
    · exact ih (by simp) (by simp) line h
  | case4 cur hne =>
    intro h1 h2 line hl
    rw [splitlinesAux_cons_cr_nil] at hl
    simp only [List.mem_singleton] at hl
    subst hl
    simp [h1, h2]
  | case5 cur rest2 hne ih =>
    intro h1 h2 line hl
    rw [splitlinesAux_cons_crlf] at hl
    rcases List.mem_cons.mp hl with h | h
    · subst h
      simp [h1, h2]
    · exact ih (by simp) (by simp) line h
  | case6 cur c2 rest2 hc2 hne ih =>
    intro h1 h2 line hl
    rw [splitlinesAux_cons_cr cur c2 rest2 hc2] at hl
    rcases List.mem_cons.mp hl with h | h
    · subst h
      simp [h1, h2]
    · exact ih (by simp) (by simp) line h
  | case7 cur c rest hcn hcr ih =>
    intro h1 h2 line hl
    rw [splitlinesAux_cons_other cur c rest hcn hcr] at hl
    refine ih ?_ ?_ line hl
    · simp only [List.mem_cons, not_or]
      exact ⟨fun h => hcn h.symm, h1⟩
    · simp only [List.mem_cons, not_or]
      exact ⟨fun h => hcr h.symm, h2⟩

/-- Every output line of `splitlines` avoids `'\n'` and `'\r'`. -/
theorem splitlines_no_nl (x : Str) : ∀ line ∈ splitlines x, '\n' ∉ line ∧ '\r' ∉ line :=
  splitlinesAux_no_nl [] x (by simp) (by simp)

/-- Every non-boundary character of the input survives into some line of
`splitlinesAux` (or comes from the accumulator). -/
theorem mem_flatten_splitlinesAux : ∀ (cur l : Str) (d : Char),
    (d ∈ cur ∨ (d ∈ l ∧ d ≠ '\n' ∧ d ≠ '\r')) → d ∈ (splitlinesAux cur l).flatten := by
  intro cur l
  induction cur, l using splitlinesAux.induct with
  | case1 cur hemp =>
    intro d hd
    rcases hd with h | ⟨h, _⟩
    · rw [List.isEmpty_iff] at hemp
      subst hemp
      simp at h
    · simp at h
  | case2 cur hemp =>
    intro d hd
    rw [splitlinesAux_nil_eq, if_neg hemp]
    rcases hd with h | ⟨h, _⟩
    · simp [h]
    · simp at h
  | case3 cur rest ih =>
    intro d hd
    rw [splitlinesAux_cons_nl]
    simp only [List.flatten_cons, List.mem_append, List.mem_reverse]
    rcases hd with h | ⟨h, hn, hr⟩
    · exact Or.inl h
    · rcases List.mem_cons.mp h with h | h
      · exact absurd h hn
      · exact Or.inr (ih d (Or.inr ⟨h, hn, hr⟩))
  | case4 cur hne =>
    intro d hd
    rw [splitlinesAux_cons_cr_nil]
    rcases hd with h | ⟨h, hn, hr⟩
    · simp only [List.flatten_cons, List.flatten_nil, List.append_nil, List.mem_reverse]
      exact h
    · rcases List.mem_cons.mp h with h | h
      · exact absurd h hr
      · simp at h
  | case5 cur rest2 hne ih =>
    intro d hd
    rw [splitlinesAux_cons_crlf]
    simp only [List.flatten_cons, List.mem_append, List.mem_reverse]
    rcases hd with h | ⟨h, hn, hr⟩
    · exact Or.inl h
    · rcases List.mem_cons.mp h with h | h
      · exact absurd h hr
      · rcases List.mem_cons.mp h with h | h
        · exact absurd h hn
        · exact Or.inr (ih d (Or.inr ⟨h, hn, hr⟩))
  | case6 cur c2 rest2 hc2 hne ih =>
    intro d hd
    rw [splitlinesAux_cons_cr cur c2 rest2 hc2]
    simp only [List.flatten_cons, List.mem_append, List.mem_reverse]
    rcases hd with h | ⟨h, hn, hr⟩
    · exact Or.inl h
    · rcases List.mem_cons.mp h with h | h
      · exact absurd h hr
      · exact Or.inr (ih d (Or.inr ⟨h, hn, hr⟩))
  | case7 cur c rest hcn hcr ih =>
    intro d hd
    rw [splitlinesAux_cons_other cur c rest hcn hcr]
    rcases hd with h | ⟨h, hn, hr⟩
    · exact ih d (Or.inl (List.mem_cons_of_mem c h))
    · rcases List.mem_cons.mp h with h | h
      · exact ih d (Or.inl (h ▸ List.mem_cons_self _ _))
      · exact ih d (Or.inr ⟨h, hn, hr⟩)

/-- The indentation step never produces a line ending in `'\n'`, given the
input line contains none. -/
theorem indentLine_getLast_ne_nl (b line : Str) (hnl : '\n' ∉ line) :
    (indentLine b line).getLast? ≠ some '\n' := by
  unfold indentLine
  split_ifs with hA hB hC
  · exact getLast?_ne_nl_of_not_mem hnl
  · have hne : line ≠ [] := by
      intro h
      subst h
      exact absurd hA (by decide)
    rw [List.getLast?_append_of_ne_nil b hne]
    exact getLast?_ne_nl_of_not_mem hnl
  · have hs : stripWs line ≠ [] := by
      intro h
      rw [h] at hA
      simp at hA
    rw [List.getLast?_append_of_ne_nil b hs]
    intro hEq
    have := getLast?_stripWs_not line '\n' hEq
    simp [isPySpace] at this
  · exact getLast?_ne_nl_of_not_mem hnl

/-- One loop iteration of `preserve_indentation` emits a line ending in
exactly one `'\n'`, given the input line contains none. -/
theorem terminateLine_indentLine_single_nl (b line : Str) (hnl : '\n' ∉ line) :
    ∃ body, terminateLine (indentLine b line) = body ++ ['\n'] ∧
      body.getLast? ≠ some '\n' := by
  have h1 := indentLine_getLast_ne_nl b line hnl
  refine ⟨indentLine b line, ?_, h1⟩
  unfold terminateLine
  rw [if_neg h1]

/-- If the whole text has a non-whitespace character and splits into a
single line, that line strips to something non-empty. -/
theorem stripWs_single_line_ne_nil (x l0 : Str)
    (hx : stripWs x ≠ []) (hl : splitlines x = [l0]) : stripWs l0 ≠ [] := by
  have hex : ∃ c ∈ x, isPySpace c = false := by
    by_contra hall
    push_neg at hall
    apply hx
    apply stripWs_eq_nil_of_all
    intro c hc
    cases hiso : isPySpace c
    · exact absurd hiso (hall c hc)
    · rfl
  obtain ⟨c, hcx, hcs⟩ := hex
  have hcn : c ≠ '\n' := by
    intro h
    subst h
    simp [isPySpace] at hcs
  have hcr : c ≠ '\r' := by
    intro h
    subst h
    simp [isPySpace] at hcs
  have hmem := mem_flatten_splitlinesAux [] x c (Or.inr ⟨hcx, hcn, hcr⟩)
  rw [show splitlinesAux [] x = splitlines x from rfl, hl] at hmem
  simp only [List.flatten_cons, List.flatten_nil, List.append_nil] at hmem
  intro hstrip
  have hsp := all_of_stripWs_eq_nil hstrip c hmem
  rw [hsp] at hcs
  exact Bool.true_eq_false.mp hcs

/-- C8: every line emitted by `preserve_indentation`, in insert mode
(explicit base indentation) and in update mode (original lines with a
matched range) alike, ends with exactly one newline terminator. -/
theorem c8_preserve_lines_single_newline (newContent : Str)
    (baseIndentation : Option Str) (originalLines : Option (List Str))
    (startIdx endIdx : Option Nat) :
    ∀ line ∈ preserve_indentation newContent baseIndentation originalLines startIdx endIdx,
      ∃ body, line = body ++ ['\n'] ∧ body.getLast? ≠ some '\n' := by
  intro line hl
  have hnls := splitlines_no_nl newContent
  unfold preserve_indentation at hl
  by_cases h1 : (stripWs newContent).isEmpty = true
  · rw [if_pos h1] at hl
    simp at hl
  · rw [if_neg h1] at hl
    by_cases hemp : (splitlines newContent).isEmpty = true
    · rw [if_pos hemp] at hl
      simp at hl
    · rw [if_neg hemp] at hl
      rcases baseIndentation with _ | bi
      · rcases originalLines with _ | ol
        · have hl' : line ∈ apply_base_indent [] (splitlines newContent) := hl
          obtain ⟨l0, hl0, rfl⟩ := List.mem_map.mp hl'
          exact terminateLine_indentLine_single_nl [] l0 (hnls l0 hl0).1
        · rcases startIdx with _ | si
          · have hl' : line ∈ apply_base_indent [] (splitlines newContent) := hl
            obtain ⟨l0, hl0, rfl⟩ := List.mem_map.mp hl'
            exact terminateLine_indentLine_single_nl [] l0 (hnls l0 hl0).1
          · rcases endIdx with _ | ei
            · have hl' : line ∈ apply_base_indent [] (splitlines newContent) := hl
              obtain ⟨l0, hl0, rfl⟩ := List.mem_map.mp hl'
              exact terminateLine_indentLine_single_nl [] l0 (hnls l0 hl0).1
            · have hl' : line ∈
                  (if (decide (ei - si = 1) && decide ((splitlines newContent).length = 1))
                      = true then
                    [(rstripNl (ol.getD si [])).take
                        ((rstripNl (ol.getD si [])).length -
                          (lstripWs (rstripNl (ol.getD si []))).length) ++
                      stripWs ((splitlines newContent).headD []) ++ ['\n']]
                  else
                    apply_base_indent
                      (extract_base_indentation ((ol.drop si).take (ei - si)))
                      (splitlines newContent)) := hl
              by_cases hopt :
                  (decide (ei - si = 1) && decide ((splitlines newContent).length = 1)) = true
              · rw [if_pos hopt] at hl'
                simp only [Bool.and_eq_true, decide_eq_true_eq] at hopt
                simp only [List.mem_singleton] at hl'
                obtain ⟨x, hx⟩ := List.length_eq_one.mp hopt.2
                refine ⟨(rstripNl (ol.getD si [])).take
                    ((rstripNl (ol.getD si [])).length -
                      (lstripWs (rstripNl (ol.getD si []))).length) ++
                    stripWs ((splitlines newContent).headD []), ?_, ?_⟩
                · rw [hl']
                · have hs : stripWs ((splitlines newContent).headD []) ≠ [] := by
                    rw [hx]
                    simp only [List.headD_cons]
                    exact stripWs_single_line_ne_nil newContent x (by simpa using h1) hx
                  rw [List.getLast?_append_of_ne_nil _ hs]
                  intro hEq
                  have hsp := getLast?_stripWs_not _ '\n' hEq
                  simp [isPySpace] at hsp
              · rw [if_neg hopt] at hl'
                obtain ⟨l0, hl0, rfl⟩ := List.mem_map.mp hl'
                exact terminateLine_indentLine_single_nl _ l0 (hnls l0 hl0).1
      · have hl' : line ∈ apply_base_indent bi (splitlines newContent) := hl
        obtain ⟨l0, hl0, rfl⟩ := List.mem_map.mp hl'
        exact terminateLine_indentLine_single_nl bi l0 (hnls l0 hl0).1

/-- C8 witness: the insert-mode call on `"ab"` with a two-space base
indentation emits `"  ab\n"`, which ends in exactly one newline. -/
theorem c8_preserve_lines_witness :
    ∃ body, ("  ab\n".toList : Str) = body ++ ['\n'] ∧ body.getLast? ≠ some '\n' :=
  c8_preserve_lines_single_newline "ab".toList (some "  ".toList) none none none
    "  ab\n".toList (by decide)

/-!
Lemmas about the fuzzy matcher's best-window loop.
-/

/-- Any score meeting the threshold strictly exceeds any score missing
it. -/
theorem fuzzy_threshold_cross (n sc sc' : Nat)
    (h : fuzzy_threshold_ok n sc = false) (h' : fuzzy_threshold_ok n sc' = true) :
    sc < sc' := by
  unfold fuzzy_threshold_ok at h h'
  simp only [Bool.and_eq_true, decide_eq_true_eq] at h'
  rw [Bool.and_eq_false_iff] at h
  simp only [decide_eq_false_iff_not, not_le] at h
  omega

/-- Full invariant of the `_find_fuzzy_match` best-window loop over the
remaining candidate indices `range' k len`: the result window (if any)
meets the threshold, carries the maximal score, and is the first window
attaining it; if no window qualifies the loop yields nothing. -/
theorem fuzzy_loop_spec (fl : List Str) (m : Nat) (kps : List Str) :
    ∀ (len k : Nat) (best : Option (Nat × Nat)) (bs : Nat),
      (best = none → bs = 0 ∧
        ∀ i < k, fuzzy_threshold_ok kps.length (fuzzy_score fl m kps i) = false) →
      (∀ s0 e0, best = some (s0, e0) → s0 < k ∧ e0 = s0 + m ∧
        fuzzy_score fl m kps s0 = bs ∧ fuzzy_threshold_ok kps.length bs = true ∧
        (∀ i < k, fuzzy_score fl m kps i ≤ bs) ∧
        (∀ i < s0, fuzzy_score fl m kps i < bs)) →
      (fuzzy_loop fl m kps (List.range' k len) best bs = none →
        ∀ i < k + len, fuzzy_threshold_ok kps.length (fuzzy_score fl m kps i) = false) ∧
      (∀ s0 e0, fuzzy_loop fl m kps (List.range' k len) best bs = some (s0, e0) →
        s0 < k + len ∧ e0 = s0 + m ∧
        fuzzy_threshold_ok kps.length (fuzzy_score fl m kps s0) = true ∧
        (∀ i < k + len, fuzzy_score fl m kps i ≤ fuzzy_score fl m kps s0) ∧
        (∀ i < s0, fuzzy_score fl m kps i < fuzzy_score fl m kps s0)) := by
  intro len
  induction len with
  | zero =>
    intro k best bs hnone hsome
    simp only [List.range', Nat.add_zero]
    constructor
    · intro hres i hi
      have hb : best = none := hres
      exact (hnone hb).2 i hi
    · intro s0 e0 hres
      have hb : best = some (s0, e0) := hres
      obtain ⟨h1, h2, h3, h4, h5, h6⟩ := hsome s0 e0 hb
      exact ⟨h1, h2, h3 ▸ h4, fun i hi => h3 ▸ h5 i hi, fun i hi => h3 ▸ h6 i hi⟩
  | succ len ih =>
    intro k best bs hnone hsome
    rw [List.range'_succ]
    show (fuzzy_loop fl m kps (k :: List.range' (k + 1) len) best bs = none → _) ∧ _
    have hstep : fuzzy_loop fl m kps (k :: List.range' (k + 1) len) best bs =
        if bs < fuzzy_score fl m kps k &&
            fuzzy_threshold_ok kps.length (fuzzy_score fl m kps k) then
          fuzzy_loop fl m kps (List.range' (k + 1) len) (some (k, k + m))
            (fuzzy_score fl m kps k)
        else fuzzy_loop fl m kps (List.range' (k + 1) len) best bs := by
      conv_lhs => unfold fuzzy_loop
    by_cases hc : (bs < fuzzy_score fl m kps k &&
        fuzzy_threshold_ok kps.length (fuzzy_score fl m kps k)) = true
    · rw [hstep, if_pos hc]
      simp only [Bool.and_eq_true, decide_eq_true_eq] at hc
      have hinv := ih (k + 1) (some (k, k + m)) (fuzzy_score fl m kps k)
        (by intro h; cases h)
        (by
          intro s0 e0 h
          injection h with h'
          injection h' with ha hb
          subst ha
          subst hb
          refine ⟨Nat.lt_succ_self k, rfl, rfl, hc.2, ?_, ?_⟩
          · intro i hi
            rcases Nat.lt_succ_iff_lt_or_eq.mp hi with hik | hik
            · rcases hbest : best with _ | ⟨s1, e1⟩
              · rw [hbest] at hnone
                exact Nat.le_of_lt (fuzzy_threshold_cross _ _ _
                  ((hnone rfl).2 i hik) hc.2)
              · rw [hbest] at hsome
                obtain ⟨_, _, _, _, h5, _⟩ := hsome s1 e1 rfl
                exact Nat.le_of_lt (Nat.lt_of_le_of_lt (h5 i hik) hc.1)
            · subst hik
              exact Nat.le_refl _
          · intro i hi
            rcases hbest : best with _ | ⟨s1, e1⟩
            · rw [hbest] at hnone
              exact fuzzy_threshold_cross _ _ _ ((hnone rfl).2 i hi) hc.2
            · rw [hbest] at hsome
              obtain ⟨_, _, _, _, h5, _⟩ := hsome s1 e1 rfl
              exact Nat.lt_of_le_of_lt (h5 i hi) hc.1)
      rw [show k + 1 + len = k + (len + 1) from by omega] at hinv
      exact hinv
    · rw [hstep, if_neg hc]
      rw [Bool.and_eq_true] at hc
      push_neg at hc
      have hinv := ih (k + 1) best bs
        (by
          intro hb
          obtain ⟨hbs, hall⟩ := hnone hb
          refine ⟨hbs, ?_⟩
          intro i hi
          rcases Nat.lt_succ_iff_lt_or_eq.mp hi with hik | hik
          · exact hall i hik
          · subst hik
            cases hthr : fuzzy_threshold_ok kps.length (fuzzy_score fl m kps i)
            · rfl
            · exfalso
              have h2 : 2 ≤ fuzzy_score fl m kps i := by
                unfold fuzzy_threshold_ok at hthr
                simp only [Bool.and_eq_true, decide_eq_true_eq] at hthr
                exact hthr.2
              have := hc (by simp only [decide_eq_true_eq]; omega)
              rw [hthr] at this
              exact this rfl)
        (by
          intro s0 e0 hb
          obtain ⟨h1, h2, h3, h4, h5, h6⟩ := hsome s0 e0 hb
          refine ⟨Nat.lt_succ_of_lt h1, h2, h3, h4, ?_, h6⟩
          intro i hi
          rcases Nat.lt_succ_iff_lt_or_eq.mp hi with hik | hik
          · exact h5 i hik
          · subst hik
            cases hthr : fuzzy_threshold_ok kps.length (fuzzy_score fl m kps i)
            · exact Nat.le_of_lt (fuzzy_threshold_cross _ _ _ hthr h4)
            · by_contra hgt
              push_neg at hgt
              have := hc (by simp only [decide_eq_true_eq]; omega)
              rw [hthr] at this
              exact this rfl)
      rw [show k + 1 + len = k + (len + 1) from by omega] at hinv
      exact hinv

/-- Specification of `_find_fuzzy_match`: a returned window starts among
the scanned candidates, spans the target length, meets the threshold,
scores maximally, and is the first to attain its score; if no candidate
window meets the threshold, nothing is returned. -/
theorem find_fuzzy_match_spec (fl tl : List Str) :
    (∀ s e, find_fuzzy_match fl tl = some (s, e) →
      s < fl.length + 1 - tl.length ∧ e = s + tl.length ∧
      fuzzy_threshold_ok (extract_key_patterns tl).length
        (fuzzy_score fl tl.length (extract_key_patterns tl) s) = true ∧
      (∀ i < fl.length + 1 - tl.length,
        fuzzy_score fl tl.length (extract_key_patterns tl) i ≤
          fuzzy_score fl tl.length (extract_key_patterns tl) s) ∧
      (∀ i < s,
        fuzzy_score fl tl.length (extract_key_patterns tl) i <
          fuzzy_score fl tl.length (extract_key_patterns tl) s)) ∧
    ((∀ i < fl.length + 1 - tl.length,
        fuzzy_threshold_ok (extract_key_patterns tl).length
          (fuzzy_score fl tl.length (extract_key_patterns tl) i) = false) →
      find_fuzzy_match fl tl = none) := by
  have hloop := fuzzy_loop_spec fl tl.length (extract_key_patterns tl)
    (fl.length + 1 - tl.length) 0 none 0
    (fun _ => ⟨rfl, fun i hi => absurd hi (Nat.not_lt_zero i)⟩)
    (fun s0 e0 h => Option.noConfusion h)
  rw [Nat.zero_add] at hloop
  by_cases hemp : tl.isEmpty = true
  · constructor
    · intro s e h
      unfold find_fuzzy_match at h
      rw [if_pos hemp] at h
      cases h
    · intro _
      unfold find_fuzzy_match
      rw [if_pos hemp]
  · by_cases hkps : (extract_key_patterns tl).isEmpty = true
    · constructor
      · intro s e h
        unfold find_fuzzy_match at h
        rw [if_neg hemp, if_pos hkps] at h
        cases h
      · intro _
        unfold find_fuzzy_match
        rw [if_neg hemp, if_pos hkps]
    · have hred : find_fuzzy_match fl tl =
          fuzzy_loop fl tl.length (extract_key_patterns tl)
            (List.range (fl.length + 1 - tl.length)) none 0 := by
        unfold find_fuzzy_match
        rw [if_neg hemp, if_neg hkps]
      rw [List.range_eq_range'] at hred
      constructor
      · intro s e h
        rw [hred] at h
        obtain ⟨h1, h2, h3, h4, h5⟩ := hloop.2 s e h
        exact ⟨h1, h2, h3, h4, h5⟩
      · intro hall
        rw [hred]
        cases hres : fuzzy_loop fl tl.length (extract_key_patterns tl)
            (List.range' 0 (fl.length + 1 - tl.length)) none 0 with
        | none => rfl
        | some r =>
          obtain ⟨s0, e0⟩ := r
          obtain ⟨h1, _, h3, _, _⟩ := hloop.2 s0 e0 hres
          rw [hall s0 h1] at h3
          cases h3

/-- Bounds of a successful exact match: a non-empty window inside the
file. -/
theorem find_exact_match_bounds (fl tl : List Str) (ot : Str) (s e : Nat)
    (h : find_exact_match fl tl ot = some (s, e)) : s < e ∧ e ≤ fl.length := by
  unfold find_exact_match at h
  by_cases hemp : tl.isEmpty = true
  · rw [if_pos hemp] at h
    cases h
  · rw [if_neg hemp] at h
    cases hf : (List.range (fl.length + 1 - tl.length)).find?
        (fun s => lines_match_at_position fl tl s) with
    | none =>
      rw [hf] at h
      cases h
    | some s0 =>
      rw [hf] at h
      simp only [Option.some.injEq, Prod.mk.injEq] at h
      obtain ⟨hs, he⟩ := h
      subst hs
      subst he
      have hs0 := List.mem_of_find?_eq_some hf
      rw [List.mem_range] at hs0
      have hm : 1 ≤ tl.length := by
        cases tl
        · simp at hemp
        · simp
      have hce : s0 + tl.length ≤ calculate_end_index s0 tl.length ot := by
        unfold calculate_end_index
        split_ifs <;> omega
      constructor
      · rw [Nat.lt_min]
        constructor <;> omega
      · exact Nat.min_le_right _ _

/-- C9: whenever `find_content_match` returns a window, via the exact pass
or the fuzzy fallback, it is a valid non-empty 0-based half-open slice of
the file: `start < end ≤ len(file_lines)`. -/
theorem c9_find_content_match_bounds (fileLines : List Str) (targetContent : Str)
    (s e : Nat) (h : find_content_match fileLines targetContent = some (s, e)) :
    s < e ∧ e ≤ fileLines.length := by
  unfold find_content_match at h
  by_cases hblank : (stripWs targetContent).isEmpty = true
  · rw [if_pos hblank] at h
    cases h
  · rw [if_neg hblank] at h
    have h2 : (match find_exact_match (fileLines.map normalize_line)
        (((splitlines targetContent).filter
          (fun line => !(stripWs line).isEmpty)).map normalize_line) targetContent with
      | some r => some r
      | none => find_fuzzy_match (fileLines.map normalize_line)
          (((splitlines targetContent).filter
            (fun line => !(stripWs line).isEmpty)).map normalize_line)) = some (s, e) := h
    clear h
    cases hx : find_exact_match (fileLines.map normalize_line)
        (((splitlines targetContent).filter
          (fun line => !(stripWs line).isEmpty)).map normalize_line) targetContent with
    | some r =>
      rw [hx] at h2
      have hre : r = (s, e) := by
        injection h2 with h'
      rw [hre] at hx
      have := find_exact_match_bounds _ _ _ _ _ hx
      rwa [List.length_map] at this
    | none =>
      rw [hx] at h2
      rename find_fuzzy_match _ _ = some (s, e) => h
      set tl := ((splitlines targetContent).filter
        (fun line => !(stripWs line).isEmpty)).map normalize_line with htl
      by_cases htl0 : tl.isEmpty = true
      · unfold find_fuzzy_match at h
        rw [if_pos htl0] at h
        cases h
      · obtain ⟨h1, h2, _, _, _⟩ := (find_fuzzy_match_spec (fileLines.map normalize_line) tl).1 s e h
        rw [List.length_map] at h1
        have hm : 1 ≤ tl.length := by
          cases htl' : tl
          · rw [htl'] at htl0
            simp at htl0
          · simp
        omega

/-- C9 witness: a concrete exact match returns the window `(1, 2)` of a
2-line file, which is a valid non-empty slice. -/
theorem c9_find_content_match_witness :
    find_content_match ["alpha\n".toList, "int x = 1;\n".toList] ("int x = 1;".toList) =
      some (1, 2) ∧ 1 < 2 ∧
      2 ≤ (["alpha\n".toList, "int x = 1;\n".toList] : List Str).length := by
  refine ⟨by decide, ?_⟩
  exact c9_find_content_match_bounds ["alpha\n".toList, "int x = 1;\n".toList]
    ("int x = 1;".toList) 1 2 (by decide)

/-- The modelled threshold check spelt out: `score >= max(0.7 * N, 2)`. -/
theorem fuzzy_threshold_ok_iff (n sc : Nat) :
    fuzzy_threshold_ok n sc = true ↔ (7 * n ≤ 10 * sc ∧ 2 ≤ sc) := by
  unfold fuzzy_threshold_ok
  simp

/-- C6: the fuzzy fallback accepts a window only when the number of
distinct key patterns occurring in its joined text reaches
`max(0.7 × key_pattern_count, 2)`; if every window scores below the
threshold it returns no match; among accepted candidates the
highest-scoring window wins, ties resolving to the lowest-index window
(every earlier window scores strictly lower). -/
theorem c6_fuzzy_threshold_and_argmax (fileLines targetLines : List Str) :
    (∀ s e, find_fuzzy_match fileLines targetLines = some (s, e) →
      e = s + targetLines.length ∧
      s < fileLines.length + 1 - targetLines.length ∧
      2 ≤ fuzzy_score fileLines targetLines.length (extract_key_patterns targetLines) s ∧
      7 * (extract_key_patterns targetLines).length ≤
        10 * fuzzy_score fileLines targetLines.length (extract_key_patterns targetLines) s ∧
      (∀ i < fileLines.length + 1 - targetLines.length,
        fuzzy_score fileLines targetLines.length (extract_key_patterns targetLines) i ≤
          fuzzy_score fileLines targetLines.length (extract_key_patterns targetLines) s) ∧
      (∀ i < s,
        fuzzy_score fileLines targetLines.length (extract_key_patterns targetLines) i <
          fuzzy_score fileLines targetLines.length (extract_key_patterns targetLines) s)) ∧
    ((∀ i < fileLines.length + 1 - targetLines.length,
        ¬(2 ≤ fuzzy_score fileLines targetLines.length (extract_key_patterns targetLines) i ∧
          7 * (extract_key_patterns targetLines).length ≤
            10 * fuzzy_score fileLines targetLines.length
              (extract_key_patterns targetLines) i)) →
      find_fuzzy_match fileLines targetLines = none) := by
  constructor
  · intro s e h
    obtain ⟨h1, h2, h3, h4, h5⟩ := (find_fuzzy_match_spec fileLines targetLines).1 s e h
    rw [fuzzy_threshold_ok_iff] at h3
    exact ⟨h2, h1, h3.2, h3.1, h4, h5⟩
  · intro hall
    apply (find_fuzzy_match_spec fileLines targetLines).2
    intro i hi
    rw [Bool.eq_false_iff]
    intro hok
    rw [fuzzy_threshold_ok_iff] at hok
    exact hall i hi ⟨hok.2, hok.1⟩

/-- C6 witness: with target line `"alpha beta"` (two key patterns) and a
file whose only window contains neither, every window misses the
threshold and the fuzzy matcher returns no match. -/
theorem c6_fuzzy_threshold_witness :
    find_fuzzy_match (["x y z".toList] : List Str) (["alpha beta".toList] : List Str) =
      none :=
  (c6_fuzzy_threshold_and_argmax (["x y z".toList] : List Str)
    (["alpha beta".toList] : List Str)).2 (by decide)

/-!
Lemmas about the block extractor, supporting the invariant claims.
-/

/-- The backward scan, when it finds an opening-brace line, returns a
1-based line number no greater than where it started. -/
theorem find_block_start_go_bounds (lines : List Str) :
    ∀ (n r : Nat), find_block_start_go lines n = some r → 1 ≤ r ∧ r ≤ n := by
  intro n
  induction n with
  | zero =>
    intro r h
    simp [find_block_start_go] at h
  | succ i ih =>
    intro r h
    have h' : (if endsWithOpenBrace (stripWs (lines.getD i [])) = true then some (i + 1)
        else if isBoundaryLine (stripWs (lines.getD i [])) = true then none
        else find_block_start_go lines i) = some r := h
    split_ifs at h' with h1 h2
    · injection h' with h2
      omega
    · have := ih r h'
      omega

/-- `_find_block_start` stays within `[1, line_num]`. -/
theorem find_block_start_bounds (lines : List Str) (n : Nat) (hn : 1 ≤ n) :
    1 ≤ find_block_start lines n ∧ find_block_start lines n ≤ n := by
  unfold find_block_start
  cases hgo : find_block_start_go lines n with
  | none => exact ⟨hn, Nat.le_refl n⟩
  | some r => simpa using find_block_start_go_bounds lines n r hgo

/-- The forward scan returns a line number past its starting index. -/
theorem find_block_end_go_bounds : ∀ (l : List Str) (i : Nat) (cnt : Int) (fo : Bool) (r : Nat),
    find_block_end_go l i cnt fo = some r → i + 1 ≤ r := by
  intro l
  induction l with
  | nil =>
    intro i cnt fo r h
    simp [find_block_end_go] at h
  | cons line rest ih =>
    intro i cnt fo r h
    have h' : (if !is_in_string_or_comment line then
        (if ((fo || decide (0 < countChar line (Char.ofNat 123))) &&
            decide (cnt + (countChar line (Char.ofNat 123) : Int) -
              (countChar line (Char.ofNat 125) : Int) = 0)) = true then some (i + 1)
         else find_block_end_go rest (i + 1)
           (cnt + (countChar line (Char.ofNat 123) : Int) -
             (countChar line (Char.ofNat 125) : Int))
           (fo || decide (0 < countChar line (Char.ofNat 123))))
        else find_block_end_go rest (i + 1) cnt fo) = some r := h
    split_ifs at h' with h1 h2
    · injection h' with h3
      omega
    · have := ih (i + 1) _ _ r h'
      omega
    · have := ih (i + 1) _ _ r h'
      omega

/-- `_find_block_end` never returns a line before the block start. -/
theorem find_block_end_ge (lines : List Str) (s : Nat) :
    s ≤ find_block_end lines s := by
  unfold find_block_end
  cases hgo : find_block_end_go (lines.drop (s - 1)) (s - 1) 0 false with
  | none => simp
  | some r =>
    have := find_block_end_go_bounds _ _ _ _ r hgo
    simp only [Option.getD_some]
    omega

/-- `_find_enclosing_block` yields a well-formed 1-based inclusive range. -/
theorem find_enclosing_block_bounds (content : Str) (m : Nat × Str) (hm : 1 ≤ m.1) :
    1 ≤ (find_enclosing_block content m).1 ∧
    (find_enclosing_block content m).1 ≤ (find_enclosing_block content m).2.1 := by
  unfold find_enclosing_block
  split_ifs with hc
  · obtain ⟨h1, h2, h3⟩ := hc
    exact ⟨by omega, by simpa using Nat.le_of_lt h3⟩
  · exact ⟨hm, Nat.le_refl _⟩

/-- Every keyword match carries a 1-based line number. -/
theorem find_keyword_matches_pos (reSearch : Str → Str → Bool) (content : Str)
    (keywords : List Str) :
    ∀ p ∈ find_keyword_matches reSearch content keywords, 1 ≤ p.1 := by
  intro p hp
  unfold find_keyword_matches at hp
  obtain ⟨a, hmem, hsome⟩ := List.mem_filterMap.mp hp
  cases hk : keywords.find? (fun k => reSearch k a.2) with
  | none =>
    rw [hk] at hsome
    cases hsome
  | some k =>
    rw [hk] at hsome
    injection hsome with h'
    subst h'
    simp

/-- Invariants of the merge loop: every emitted block is a well-formed
range, consecutive blocks are separated by more than two lines, and the
first emitted block starts at the current start. -/
theorem merge_blocks_go_spec : ∀ (rest : List (Nat × Nat × Str)) (cs ce : Nat) (cks : List Str),
    (∀ b ∈ rest, 1 ≤ b.1 ∧ b.1 ≤ b.2.1) → 1 ≤ cs → cs ≤ ce →
    (∀ p ∈ merge_blocks_go rest cs ce cks, 1 ≤ p.1 ∧ p.1 ≤ p.2.1) ∧
    List.Chain' (fun p q => p.2.1 + 2 < q.1) (merge_blocks_go rest cs ce cks) ∧
    (merge_blocks_go rest cs ce cks).head?.map Prod.fst = some cs := by
  intro rest
  induction rest with
  | nil =>
    intro cs ce cks hall h1 h2
    refine ⟨?_, ?_, rfl⟩
    · intro p hp
      have hp' : p ∈ [(cs, ce, cks)] := hp
      simp only [List.mem_singleton] at hp'
      subst hp'
      exact ⟨h1, h2⟩
    · exact List.chain'_singleton _
  | cons b rest ih =>
    obtain ⟨s, e, k⟩ := b
    intro cs ce cks hall h1 h2
    have hred : merge_blocks_go ((s, e, k) :: rest) cs ce cks =
        if s ≤ ce + 2 then
          merge_blocks_go rest cs (max ce e) (if k ∈ cks then cks else cks ++ [k])
        else (cs, ce, cks) :: merge_blocks_go rest s e [k] := by
      conv_lhs => unfold merge_blocks_go
    by_cases hc : s ≤ ce + 2
    · rw [hred, if_pos hc]
      exact ih cs (max ce e) _ (fun b hb => hall b (List.mem_cons_of_mem _ hb)) h1
        (Nat.le_trans h2 (Nat.le_max_left _ _))
    · rw [hred, if_neg hc]
      have hb := hall (s, e, k) (List.mem_cons_self _ _)
      obtain ⟨hres1, hres2, hres3⟩ := ih s e [k]
        (fun b hb => hall b (List.mem_cons_of_mem _ hb)) hb.1 hb.2
      refine ⟨?_, ?_, by simp⟩
      · intro p hp
        rcases List.mem_cons.mp hp with h | h
        · subst h
          exact ⟨h1, h2⟩
        · exact hres1 p h
      · rw [List.chain'_cons']
        refine ⟨?_, hres2⟩
        intro q hq
        cases hh : (merge_blocks_go rest s e [k]).head? with
        | none =>
          rw [hh] at hq
          cases hq
        | some q' =>
          rw [hh] at hq
          rw [hh] at hres3
          simp only [Option.mem_def, Option.some.injEq] at hq
          cases hq
          simp at hres3
          show ce + 2 < _
          omega

/-- `_merge_blocks` keeps ranges well-formed and leaves more than two
lines between consecutive merged blocks. -/
theorem merge_blocks_spec (blocks : List (Nat × Nat × Str))
    (hall : ∀ b ∈ blocks, 1 ≤ b.1 ∧ b.1 ≤ b.2.1) :
    (∀ p ∈ merge_blocks blocks, 1 ≤ p.1 ∧ p.1 ≤ p.2.1) ∧
    List.Chain' (fun p q => p.2.1 + 2 < q.1) (merge_blocks blocks) := by
  rcases hbs : blocks with _ | ⟨⟨s, e, k⟩, rest⟩
  · exact ⟨by simp [merge_blocks], by simp [merge_blocks]⟩
  · rcases hrest : rest with _ | ⟨b2, rest2⟩
    · subst hrest
      have hb := hall (s, e, k) (by rw [hbs]; exact List.mem_cons_self _ _)
      refine ⟨?_, ?_⟩
      · intro p hp
        have hp' : p ∈ [(s, e, [k])] := hp
        simp only [List.mem_singleton] at hp'
        subst hp'
        exact hb
      · exact List.chain'_singleton _
    · subst hrest
      have hperm := List.perm_insertionSort
        (fun b1 b2 : Nat × Nat × Str => b1.1 ≤ b2.1) ((s, e, k) :: b2 :: rest2)
      have hsorted_mem : ∀ b ∈ sortBlocksByStart ((s, e, k) :: b2 :: rest2),
          1 ≤ b.1 ∧ b.1 ≤ b.2.1 := by
        intro b hbmem
        apply hall
        rw [hbs]
        exact hperm.mem_iff.mp hbmem
      cases hsrt : sortBlocksByStart ((s, e, k) :: b2 :: rest2) with
      | nil =>
        exfalso
        have := hperm.length_eq
        rw [show List.insertionSort (fun b1 b2 : Nat × Nat × Str => b1.1 ≤ b2.1)
            ((s, e, k) :: b2 :: rest2) = sortBlocksByStart ((s, e, k) :: b2 :: rest2)
          from rfl, hsrt] at this
        simp at this
      | cons hd tl =>
        obtain ⟨s0, e0, k0⟩ := hd
        have hred : merge_blocks ((s, e, k) :: b2 :: rest2) =
            merge_blocks_go tl s0 e0 [k0] := by
          show (match sortBlocksByStart ((s, e, k) :: b2 :: rest2) with
            | [] => ([] : List (Nat × Nat × List Str))
            | (s, e, k) :: rest => merge_blocks_go rest s e [k]) =
            merge_blocks_go tl s0 e0 [k0]
          rw [hsrt]
        have hhd := hsorted_mem (s0, e0, k0) (by rw [hsrt]; exact List.mem_cons_self _ _)
        have htl : ∀ b ∈ tl, 1 ≤ b.1 ∧ b.1 ≤ b.2.1 := by
          intro b hbmem
          exact hsorted_mem b (by rw [hsrt]; exact List.mem_cons_of_mem _ hbmem)
        obtain ⟨hm1, hm2, _⟩ := merge_blocks_go_spec tl s0 e0 [k0] htl hhd.1 hhd.2
        rw [hred]
        exact ⟨hm1, hm2⟩

/-- C7: every block returned by `extract_blocks` — for any regex matcher,
file, content and pattern list — has `start_line ≤ end_line`, and its
`content` is exactly the newline-joined slice
`lines[start_line - 1 : end_line]` of the input. -/
theorem c7_extract_blocks_invariant (reSearch : Str → Str → Bool) (filePath content : Str)
    (keywords : List Str) :
    ∀ blk ∈ extract_blocks reSearch filePath content keywords,
      blk.start_line ≤ blk.end_line ∧
      blk.content = List.intercalate ['\n']
        (((splitlines content).drop (blk.start_line - 1)).take
          (blk.end_line - (blk.start_line - 1))) := by
  intro blk hblk
  unfold extract_blocks at hblk
  by_cases hkm : (find_keyword_matches reSearch content keywords).isEmpty = true
  · rw [if_pos hkm] at hblk
    simp at hblk
  · rw [if_neg hkm] at hblk
    have hblk' : blk ∈ (merge_blocks ((find_keyword_matches reSearch content keywords).map
        (find_enclosing_block content))).map
        (fun mb => (⟨extract_block_content content mb.1 mb.2.1, mb.1, mb.2.1, filePath,
          mb.2.2⟩ : CodeBlock)) := hblk
    obtain ⟨mb, hmb, rfl⟩ := List.mem_map.mp hblk'
    have hraw : ∀ b ∈ (find_keyword_matches reSearch content keywords).map
        (find_enclosing_block content), 1 ≤ b.1 ∧ b.1 ≤ b.2.1 := by
      intro b hb
      obtain ⟨m, hm, rfl⟩ := List.mem_map.mp hb
      exact find_enclosing_block_bounds content m
        (find_keyword_matches_pos reSearch content keywords m hm)
    have hinv := (merge_blocks_spec _ hraw).1 mb hmb
    exact ⟨hinv.2, rfl⟩

/-- C7 witness: on a small Java file with a substring matcher, the single
extracted block spans lines 4–6 and carries exactly that slice. -/
theorem c7_extract_blocks_witness :
    (⟨"  void bar() \x7b\n    use(Thing.v);\n  \x7d".toList, 4, 6, "F.java".toList,
      ["Thing".toList]⟩ : CodeBlock).start_line ≤
      (⟨"  void bar() \x7b\n    use(Thing.v);\n  \x7d".toList, 4, 6, "F.java".toList,
        ["Thing".toList]⟩ : CodeBlock).end_line ∧
    (⟨"  void bar() \x7b\n    use(Thing.v);\n  \x7d".toList, 4, 6, "F.java".toList,
      ["Thing".toList]⟩ : CodeBlock).content = List.intercalate ['\n']
      (((splitlines
        ("package com.x;\n\nclass Foo \x7b\n  void bar() \x7b\n    use(Thing.v);\n  \x7d\n\x7d\n".toList)).drop
          (4 - 1)).take (6 - (4 - 1))) :=
  c7_extract_blocks_invariant (fun k line => containsSub line k) ("F.java".toList)
    ("package com.x;\n\nclass Foo \x7b\n  void bar() \x7b\n    use(Thing.v);\n  \x7d\n\x7d\n".toList)
    (["Thing".toList])
    (⟨"  void bar() \x7b\n    use(Thing.v);\n  \x7d".toList, 4, 6, "F.java".toList,
      ["Thing".toList]⟩ : CodeBlock) (by decide)

/-- Strengthen a chain with a fact holding for every element. -/
theorem chain'_strengthen {α : Type} {R : α → α → Prop} {B : α → Prop} :
    ∀ {l : List α}, List.Chain' R l → (∀ x ∈ l, B x) →
      List.Chain' (fun p q => R p q ∧ B p ∧ B q) l := by
  intro l
  induction l with
  | nil => intro _ _; exact List.chain'_nil
  | cons a l ih =>
    intro hc hb
    rw [List.chain'_cons'] at hc ⊢
    refine ⟨?_, ih hc.2 (fun x hx => hb x (List.mem_cons_of_mem _ hx))⟩
    intro h hh
    exact ⟨hc.1 h hh, hb a (List.mem_cons_self _ _),
      hb h (List.mem_cons_of_mem _ (List.mem_of_mem_head? hh))⟩

/-- C10: the blocks returned by `extract_blocks` are strictly ordered and
pairwise disjoint — each consecutive pair satisfies
`next.start_line > previous.end_line + 2`, and hence no two returned
blocks overlap or lie within the merge distance. -/
theorem c10_extract_blocks_separated (reSearch : Str → Str → Bool) (filePath content : Str)
    (keywords : List Str) :
    List.Chain' (fun p q => p.end_line + 2 < q.start_line)
      (extract_blocks reSearch filePath content keywords) ∧
    List.Pairwise (fun p q => p.end_line < q.start_line)
      (extract_blocks reSearch filePath content keywords) := by
  by_cases hkm : (find_keyword_matches reSearch content keywords).isEmpty = true
  · have hred : extract_blocks reSearch filePath content keywords = [] := by
      unfold extract_blocks
      rw [if_pos hkm]
    rw [hred]
    exact ⟨List.chain'_nil, List.Pairwise.nil⟩
  · have hred : extract_blocks reSearch filePath content keywords =
        (merge_blocks ((find_keyword_matches reSearch content keywords).map
          (find_enclosing_block content))).map
          (fun mb => (⟨extract_block_content content mb.1 mb.2.1, mb.1, mb.2.1, filePath,
            mb.2.2⟩ : CodeBlock)) := by
      unfold extract_blocks
      rw [if_neg hkm]
    have hraw : ∀ b ∈ (find_keyword_matches reSearch content keywords).map
        (find_enclosing_block content), 1 ≤ b.1 ∧ b.1 ≤ b.2.1 := by
      intro b hb
      obtain ⟨m, hm, rfl⟩ := List.mem_map.mp hb
      exact find_enclosing_block_bounds content m
        (find_keyword_matches_pos reSearch content keywords m hm)
    obtain ⟨hbounds, hchain⟩ := merge_blocks_spec _ hraw
    rw [hred]
    constructor
    · rw [List.chain'_map]
      exact hchain
    · have hU := chain'_strengthen (B := fun x => 1 ≤ x.1 ∧ x.1 ≤ x.2.1) hchain hbounds
      haveI : IsTrans (Nat × Nat × List Str)
          (fun p q => (p.2.1 + 2 < q.1) ∧ (1 ≤ p.1 ∧ p.1 ≤ p.2.1) ∧
            (1 ≤ q.1 ∧ q.1 ≤ q.2.1)) := by
        constructor
        intro a b c h1 h2
        refine ⟨?_, h1.2.1, h2.2.2⟩
        have hb1 := h1.2.2
        have hb2 := h2.1
        have hb3 := h1.1
        omega
      rw [List.chain'_iff_pairwise] at hU
      rw [List.pairwise_map]
      refine hU.imp fun {a b} h => ?_
      show a.2.1 < b.1
      omega

/-!
Lemmas for the content-matcher round trip (claim C3): splitting a
concatenation of newline-terminated lines recovers the lines, and
normalization is insensitive to the terminator.
-/

/-- `dropWhile` is the identity when no element satisfies the predicate. -/
theorem dropWhile_eq_self_of_all {α : Type} (p : α → Bool) :
    ∀ (l : List α), (∀ c ∈ l, p c = false) → l.dropWhile p = l := by
  intro l h
  cases l with
  | nil => rfl
  | cons c rest =>
    rw [List.dropWhile_cons, if_neg]
    rw [h c (List.mem_cons_self _ _)]
    simp

/-- `rstrip('\n\r')` is the identity on newline-free text. -/
theorem rstripNl_eq_self (body : Str) (h1 : '\n' ∉ body) (h2 : '\r' ∉ body) :
    rstripNl body = body := by
  unfold rstripNl rstripBy
  rw [dropWhile_eq_self_of_all]
  · exact List.reverse_reverse body
  · intro c hc
    rw [List.mem_reverse] at hc
    unfold isNlCr
    have hcn : c ≠ '\n' := fun h => h1 (h ▸ hc)
    have hcr : c ≠ '\r' := fun h => h2 (h ▸ hc)
    simp [hcn, hcr]

/-- `rstrip('\n\r')` removes a final newline from newline-free text. -/
theorem rstripNl_append_nl (body : Str) (h1 : '\n' ∉ body) (h2 : '\r' ∉ body) :
    rstripNl (body ++ ['\n']) = body := by
  unfold rstripNl rstripBy
  rw [List.reverse_append]
  show (('\n' :: body.reverse).dropWhile isNlCr).reverse = body
  rw [List.dropWhile_cons, if_pos (by simp [isNlCr])]
  rw [dropWhile_eq_self_of_all]
  · exact List.reverse_reverse body
  · intro c hc
    rw [List.mem_reverse] at hc
    have hcn : c ≠ '\n' := fun h => h1 (h ▸ hc)
    have hcr : c ≠ '\r' := fun h => h2 (h ▸ hc)
    simp [isNlCr, hcn, hcr]

/-- `str.strip()` ignores a trailing newline. -/
theorem stripWs_append_nl (x : Str) : stripWs (x ++ ['\n']) = stripWs x := by
  unfold stripWs lstripBy
  by_cases hx : x.dropWhile isPySpace = []
  · have h1 : (x ++ ['\n']).dropWhile isPySpace = [] := by
      rw [List.dropWhile_eq_nil_iff]
      intro c hc
      rcases List.mem_append.mp hc with h | h
      · exact List.dropWhile_eq_nil_iff.mp hx c h
      · simp only [List.mem_singleton] at h
        subst h
        decide
    rw [h1, hx]
  · rw [List.dropWhile_append, if_neg (by simpa using hx)]
    unfold rstripBy
    rw [List.reverse_append]
    show ((('\n' :: (x.dropWhile isPySpace).reverse).dropWhile isPySpace).reverse) = _
    rw [List.dropWhile_cons, if_pos (by decide)]

/-- Normalization of a newline-terminated line equals normalization of its
body. -/
theorem normalize_line_append_nl (body : Str) (h1 : '\n' ∉ body) (h2 : '\r' ∉ body) :
    normalize_line (body ++ ['\n']) = rstripWs body := by
  unfold normalize_line
  rw [rstripNl_append_nl body h1 h2]

/-- Splitting `body ++ '\n' ++ rest` emits `accumulator ++ body` as the
next line. -/
theorem splitlinesAux_append_line (body : Str) (h1 : '\n' ∉ body) (h2 : '\r' ∉ body) :
    ∀ (cur rest : Str), splitlinesAux cur (body ++ '\n' :: rest) =
      (cur.reverse ++ body) :: splitlinesAux [] rest := by
  induction body with
  | nil =>
    intro cur rest
    rw [List.nil_append, splitlinesAux_cons_nl, List.append_nil]
  | cons c body ih =>
    intro cur rest
    have hcn : c ≠ '\n' := fun h => h1 (h ▸ List.mem_cons_self _ _)
    have hcr : c ≠ '\r' := fun h => h2 (h ▸ List.mem_cons_self _ _)
    rw [List.cons_append, splitlinesAux_cons_other cur c _ hcn hcr]
    rw [ih (fun h => h1 (List.mem_cons_of_mem _ h))
      (fun h => h2 (List.mem_cons_of_mem _ h)) (c :: cur) rest]
    rw [List.reverse_cons, List.append_assoc]
    rfl

/-- A line is proper when it is a newline-terminated newline-free body. -/
def properLine (l : Str) : Prop :=
  ∃ body, l = body ++ ['\n'] ∧ '\n' ∉ body ∧ '\r' ∉ body

/-- Splitting the concatenation of proper lines recovers their bodies. -/
theorem splitlines_flatten_proper : ∀ (L : List Str), (∀ l ∈ L, properLine l) →
    splitlines L.flatten = L.map (fun l => l.dropLast) := by
  intro L
  induction L with
  | nil => intro _; rfl
  | cons l L ih =>
    intro hall
    obtain ⟨body, hbody, h1, h2⟩ := hall l (List.mem_cons_self _ _)
    rw [List.flatten_cons, hbody]
    unfold splitlines
    rw [List.append_assoc, List.singleton_append, splitlinesAux_append_line body h1 h2]
    rw [List.reverse_nil, List.nil_append]
    rw [show splitlinesAux [] L.flatten = splitlines L.flatten from rfl]
    rw [ih (fun x hx => hall x (List.mem_cons_of_mem _ hx))]
    rw [List.map_cons]
    show body :: _ = List.dropLast (body ++ ['\n']) :: _
    rw [List.dropLast_concat]

/-- A line always matches itself (whitespace-removal strategy). -/
theorem single_line_match_self (x : Str) : single_line_match x x = true := by
  unfold single_line_match
  rw [if_pos rfl]

/-- The window check succeeds when every target line is found verbatim at
its offset position. -/
theorem lmatchAux_of_pointwise (nfl : List Str) :
    ∀ (tls : List Str) (idx : Nat),
      (∀ i (h : i < tls.length), nfl[idx + i]? = some tls[i]) →
      lmatchAux nfl tls idx = true := by
  intro tls
  induction tls with
  | nil => intro idx _; rfl
  | cons t ts ih =>
    intro idx hpt
    unfold lmatchAux
    have h0 := hpt 0 (by simp)
    rw [Nat.add_zero] at h0
    rw [h0]
    show (single_line_match t t && lmatchAux nfl ts (idx + 1)) = true
    rw [single_line_match_self, Bool.true_and]
    apply ih
    intro i hi
    have := hpt (i + 1) (by simpa using hi)
    rw [show idx + (i + 1) = idx + 1 + i from by omega] at this
    exact this

/-- `find?` over `range n` returns the first index satisfying the
predicate. -/
theorem find?_range_eq_first (p : Nat → Bool) (n a : Nat) (ha : a < n) (hp : p a = true)
    (hbefore : ∀ i < a, p i = false) : (List.range n).find? p = some a := by
  rw [show n = a + (n - a) from by omega, List.range_add, List.find?_append]
  have hnone : (List.range a).find? p = none := by
    rw [List.find?_eq_none]
    intro x hx
    rw [List.mem_range] at hx
    rw [hbefore x hx]
    simp
  rw [hnone]
  obtain ⟨k, hk⟩ : ∃ k, n - a = k + 1 := ⟨n - a - 1, by omega⟩
  rw [hk, List.range_succ_eq_map, List.map_cons]
  rw [Option.none_or]
  rw [List.find?_cons_of_pos _ (by simpa using hp)]
  simp

/-- C3 (amended): if `target_text` is the verbatim extraction of
`file_lines[a:b]` from a file of newline-terminated lines, the extracted
slice has at least one non-blank line with blank lines only at its end,
and no window strictly before `a` matches the extracted pattern, then
`find_content_match` returns exactly `(a, b)` — the matched non-blank
lines extended by the trailing blank lines, capped at file length. -/
theorem c3_round_trip_amended (fileLines : List Str) (a b : Nat)
    (hproper : ∀ l ∈ fileLines, properLine l)
    (hab : a < b) (hb : b ≤ fileLines.length)
    (hnb : ((fileLines.drop a).take (b - a)).takeWhile
        (fun l => !(stripWs l).isEmpty) ≠ [])
    (htrail : ∀ l ∈ ((fileLines.drop a).take (b - a)).dropWhile
        (fun l => !(stripWs l).isEmpty), (stripWs l).isEmpty = true)
    (hfirst : ∀ i < a, lines_match_at_position (fileLines.map normalize_line)
        (((splitlines ((fileLines.drop a).take (b - a)).flatten).filter
          (fun line => !(stripWs line).isEmpty)).map normalize_line) i = false) :
    find_content_match fileLines ((fileLines.drop a).take (b - a)).flatten = some (a, b) := by
  set slice := (fileLines.drop a).take (b - a) with hslice
  have hsl : slice.length = b - a := by
    rw [hslice, List.length_take, List.length_drop]
    omega
  have hsliceProper : ∀ l ∈ slice, properLine l := by
    intro l hl
    exact hproper l (List.mem_of_mem_drop (List.mem_of_mem_take hl))
  have hsplit : splitlines slice.flatten = slice.map (fun l => l.dropLast) :=
    splitlines_flatten_proper slice hsliceProper
  set P := slice.takeWhile (fun l => !(stripWs l).isEmpty) with hP
  set Q := slice.dropWhile (fun l => !(stripWs l).isEmpty) with hQ
  have hPQ : P ++ Q = slice := List.takeWhile_append_dropWhile _ _
  have hPmem : ∀ l ∈ P, l ∈ slice := fun l hl => (List.takeWhile_prefix _).mem hl
  have hQmem : ∀ l ∈ Q, l ∈ slice := by
    intro l hl
    rw [← hPQ]
    exact List.mem_append_right _ hl
  have hfilter : (splitlines slice.flatten).filter (fun line => !(stripWs line).isEmpty) =
      P.map (fun l => l.dropLast) := by
    rw [hsplit, ← hPQ, List.map_append, List.filter_append]
    have h1 : (P.map (fun l => l.dropLast)).filter (fun line => !(stripWs line).isEmpty) =
        P.map (fun l => l.dropLast) := by
      rw [List.filter_eq_self]
      intro x hx
      obtain ⟨l, hl, rfl⟩ := List.mem_map.mp hx
      obtain ⟨body, hbody, hb1, hb2⟩ := hsliceProper l (hPmem l hl)
      have hnbl := List.mem_takeWhile_imp (hP ▸ hl)
      rw [hbody] at hnbl ⊢
      rw [List.dropLast_concat]
      rwa [stripWs_append_nl] at hnbl
    have h2 : (Q.map (fun l => l.dropLast)).filter (fun line => !(stripWs line).isEmpty) =
        [] := by
      rw [List.filter_eq_nil_iff]
      intro x hx
      obtain ⟨l, hl, rfl⟩ := List.mem_map.mp hx
      obtain ⟨body, hbody, hb1, hb2⟩ := hsliceProper l (hQmem l hl)
      have hbl := htrail l (hQ ▸ hl)
      rw [hbody] at hbl ⊢
      rw [List.dropLast_concat]
      rw [stripWs_append_nl] at hbl
      simp [hbl]
    rw [h1, h2, List.append_nil]
  set tl := ((splitlines slice.flatten).filter
    (fun line => !(stripWs line).isEmpty)).map normalize_line with htl
  have htlP : tl = P.map (fun l => normalize_line l.dropLast) := by
    show List.map normalize_line ((splitlines slice.flatten).filter
      (fun line => !(stripWs line).isEmpty)) = P.map (fun l => normalize_line l.dropLast)
    rw [hfilter, List.map_map]
    rfl
  have hPlen : P.length ≤ b - a := by
    have hle := (List.takeWhile_prefix
      (fun l => !(stripWs l).isEmpty) (l := slice)).length_le
    rw [← hP] at hle
    omega
  have hPpos : 0 < P.length := List.length_pos.mpr hnb
  have hm : tl.length = P.length := by
    rw [htlP, List.length_map]
  have hpoint : ∀ i (hi : i < tl.length),
      (fileLines.map normalize_line)[a + i]? = some tl[i] := by
    intro i hi
    have hiP : i < P.length := hm ▸ hi
    have hiS : i < slice.length := by omega
    have hiF : a + i < fileLines.length := by omega
    have hPi : P[i] = slice[i] := (List.takeWhile_prefix _).getElem hiP
    have hSiq : slice[i]? = fileLines[a + i]? := by
      show (List.take (b - a) (List.drop a fileLines))[i]? = _
      rw [List.getElem?_take_of_lt (by omega), List.getElem?_drop]
    have hSi : slice[i] = fileLines[a + i] := by
      rw [List.getElem?_eq_getElem hiS, List.getElem?_eq_getElem hiF] at hSiq
      injection hSiq
    obtain ⟨body, hbody, hb1, hb2⟩ := hproper fileLines[a + i] (List.getElem_mem hiF)
    have htliq : tl[i]? = some (normalize_line (P[i]).dropLast) := by
      rw [htlP, List.getElem?_map, List.getElem?_eq_getElem hiP]
      rfl
    have htli : tl[i] = normalize_line (P[i]).dropLast := by
      rw [List.getElem?_eq_getElem hi] at htliq
      injection htliq
    rw [List.getElem?_map, List.getElem?_eq_getElem hiF]
    rw [htli, hPi, hSi, hbody, List.dropLast_concat]
    show some (normalize_line (body ++ ['\n'])) = _
    rw [normalize_line_append_nl body hb1 hb2]
    unfold normalize_line
    rw [rstripNl_eq_self body hb1 hb2]
  have hmatch : lines_match_at_position (fileLines.map normalize_line) tl a = true :=
    lmatchAux_of_pointwise _ tl a hpoint
  have hfind : (List.range ((fileLines.map normalize_line).length + 1 - tl.length)).find?
      (fun s => lines_match_at_position (fileLines.map normalize_line) tl s) = some a := by
    apply find?_range_eq_first
    · rw [List.length_map]
      omega
    · exact hmatch
    · intro i hi
      exact hfirst i hi
  have hslen : (splitlines slice.flatten).length = b - a := by
    rw [hsplit, List.length_map, hsl]
  have hcalc : calculate_end_index a tl.length slice.flatten = b := by
    unfold calculate_end_index
    rw [hslen]
    split_ifs with hlt
    · omega
    · omega
  have hexact : find_exact_match (fileLines.map normalize_line) tl slice.flatten =
      some (a, b) := by
    unfold find_exact_match
    rw [if_neg (by
      intro hcon
      rw [List.isEmpty_iff] at hcon
      rw [hcon] at hm
      simp at hm
      omega)]
    rw [hfind]
    show some (a, min (calculate_end_index a tl.length slice.flatten)
      (List.map normalize_line fileLines).length) = some (a, b)
    rw [hcalc, List.length_map, Nat.min_eq_left hb]
  have hblank : (stripWs slice.flatten).isEmpty ≠ true := by
    intro hcon
    rw [List.isEmpty_iff] at hcon
    obtain ⟨l0, hl0⟩ := List.exists_mem_of_ne_nil P hnb
    have hnbl := List.mem_takeWhile_imp (hP ▸ hl0)
    have hl0s : stripWs l0 ≠ [] := by
      intro h
      rw [h] at hnbl
      simp at hnbl
    have hex : ∃ c ∈ l0, isPySpace c = false := by
      by_contra hall
      push_neg at hall
      apply hl0s
      apply stripWs_eq_nil_of_all
      intro c hc
      cases hiso : isPySpace c
      · exact absurd hiso (hall c hc)
      · rfl
    obtain ⟨c, hcl, hcs⟩ := hex
    have hcf : c ∈ slice.flatten := List.mem_flatten.mpr ⟨l0, hPmem l0 hl0, hcl⟩
    have := all_of_stripWs_eq_nil hcon c hcf
    rw [this] at hcs
    cases hcs
  show find_content_match fileLines slice.flatten = some (a, b)
  unfold find_content_match
  rw [if_neg hblank]
  show (match find_exact_match (fileLines.map normalize_line) tl slice.flatten with
    | some r => some r
    | none => find_fuzzy_match (fileLines.map normalize_line) tl) = some (a, b)
  rw [hexact]

/-- C3 counterexample: with duplicated content, the verbatim extraction of
`file_lines[1:2]` matches first at the earlier window, so the matcher
returns `(0, 1)` rather than `(1, 2)`. -/
theorem c3_round_trip_counterexample :
    (((["x\n".toList, "x\n".toList] : List Str).drop 1).take (2 - 1)).flatten =
      "x\n".toList ∧
    find_content_match ["x\n".toList, "x\n".toList] ("x\n".toList) = some (0, 1) ∧
    some ((0 : Nat), (1 : Nat)) ≠ some ((1 : Nat), (2 : Nat)) := by
  decide

/-- C3 witness: on a two-line file with distinct lines, the extraction of
`file_lines[1:2]` round-trips to `(1, 2)`. -/
theorem c3_round_trip_witness :
    find_content_match ["aaa\n".toList, "bbb\n".toList]
      (((["aaa\n".toList, "bbb\n".toList] : List Str).drop 1).take (2 - 1)).flatten =
      some (1, 2) := by
  apply c3_round_trip_amended
  · intro l hl
    simp only [List.mem_cons, List.not_mem_nil, or_false] at hl
    rcases hl with rfl | rfl
    · exact ⟨"aaa".toList, by decide, by decide, by decide⟩
    · exact ⟨"bbb".toList, by decide, by decide, by decide⟩
  · decide
  · decide
  · decide
  · decide
  · decide
